import Mathlib

/-! BeepBox song player (`templates/driver.cpp`).

A shallow embedding of the track player: the two constant tables, the
`ToneParams` record, the packing routine `toneSub`, the `Track` record and
the per-tick routine `step`.

Machine integers are natural numbers; every place where the C++ code
computes in a fixed width carries an explicit reduction (`u8`, `u16`,
`u32`).  The host primitive `tone` is a black box taking four 32-bit words;
a call to it is recorded as a `ToneCall`, and a routine's effect on the host
is the list of calls it made, in order.
-/

namespace Beep

/-! ## Fixed-width arithmetic -/

/-- Conversion to `uint8_t`. -/
def u8 (n : Nat) : Nat := n % 256

/-- Conversion to `uint16_t`. -/
def u16 (n : Nat) : Nat := n % 65536

/-- Conversion to `uint32_t`. -/
def u32 (n : Nat) : Nat := n % 4294967296

/-- Left shift of a `uint32_t` value (`a << k`), bits above bit 31 are lost. -/
def shl32 (a k : Nat) : Nat := u32 (a <<< k)

/-! ## Data -/

/-- Parameters of one tone; every field is a `uint32_t` in the source. -/
structure ToneParams where
  freq1 : Nat := 0
  freq2 : Nat := 0
  attack : Nat := 0
  decay : Nat := 0
  sustain : Nat := 0
  release : Nat := 0
  volume : Nat := 0
  channel : Nat := 0
  mode : Nat := 0
  deriving DecidableEq, Repr

/-- Every field of a `ToneParams` is a 32-bit unsigned value. -/
def ToneParams.wf (p : ToneParams) : Prop :=
  p.freq1 < 4294967296 ∧ p.freq2 < 4294967296 ∧ p.attack < 4294967296 ∧
  p.decay < 4294967296 ∧ p.sustain < 4294967296 ∧ p.release < 4294967296 ∧
  p.volume < 4294967296 ∧ p.channel < 4294967296 ∧ p.mode < 4294967296

instance (p : ToneParams) : Decidable p.wf := by
  unfold ToneParams.wf; infer_instance

/-- Musical note frequencies used by tracks (`uint32_t trackNotes[60]`). -/
def trackNotes : List Nat :=
  [ 65,  70,  75,  80,  85,  90, 95, 100, 105, 110, 115, 125,
   130, 140, 150, 160, 170, 180, 190, 200, 210, 220, 230, 250,
   260, 280, 290, 310, 330, 350, 370, 390, 410, 440, 460, 490,
   520, 550, 600, 620, 660, 700, 750, 780, 840, 880, 940, 980,
   1050, 1110, 1170, 1240, 1320, 1400, 1480, 1570, 1660, 1760, 1860, 1980]

/-- Instruments available for use, as (channel, mode) rows
(`uint32_t trackInstruments[][2]`). -/
def trackInstruments : List (Nat × Nat) :=
  [ (2, 0),   -- channel 2: triangle
    (0, 2),   -- channel 0: square
    (0, 3),   -- pulse wide
    (0, 1),   -- pulse narrow
    (0, 0),   -- sawtooth
    (1, 2),   -- channel 1: square
    (1, 3),   -- pulse wide
    (1, 1),   -- pulse narrow
    (1, 0) ]  -- sawtooth

/-- Reserved for empty notes. -/
def TrackOpCodeEmpty : Nat := 0xFF

/-- Cuts the track off, reverting it to the beginning. -/
def TrackOpCodeEnd : Nat := 0xFE

/-- One sound track.  `tones` is the byte buffer seen through the `uint8_t*`
of the source: the track only refers to it, and an index outside the list is
an access outside the buffer. -/
structure Track where
  next : Nat := 0                 -- uint32_t
  wait : Nat := 0                 -- uint16_t
  ticks : Nat := 0                -- uint8_t
  instrument : Nat := 0           -- uint8_t
  volume : Nat := 100             -- uint8_t
  flags : Nat × Nat := (0, 0)     -- uint8_t[2]
  tones : List Nat := []          -- uint8_t*
  toneCount : Nat := 0            -- uint32_t
  deriving DecidableEq, Repr

/-- Every field of a `Track` lies in the range of its C++ type, every byte of
the buffer is a byte, and the buffer fits the 32-bit address space of the
WASM-4 target. -/
def Track.wf (t : Track) : Prop :=
  t.next < 4294967296 ∧ t.wait < 65536 ∧ t.ticks < 256 ∧ t.instrument < 256 ∧
  t.volume < 256 ∧ t.flags.1 < 256 ∧ t.flags.2 < 256 ∧
  t.toneCount < 4294967296 ∧ t.tones.length < 4294967296 ∧
  ∀ b ∈ t.tones, b < 256

instance (t : Track) : Decidable t.wf := by
  unfold Track.wf; infer_instance

/-- One invocation of the host primitive `tone(frequency, duration, volume,
flags)`; the four words are `uint32_t`. -/
structure ToneCall where
  frequency : Nat
  envelope : Nat
  volume : Nat
  flags : Nat
  deriving DecidableEq, Repr

/-! ## Operations -/

/-- The default parameters (`newToneParams`). -/
def newToneParams : ToneParams :=
  { freq1 := 500, freq2 := 0, attack := 0, decay := 0, sustain := 30,
    release := 0, volume := 100, channel := 0, mode := 0 }

/-- Packing of the parameters into the four words of the host call
(`toneSub`); the result is the list of host calls made. -/
def toneSub (p : ToneParams) : List ToneCall :=
  [ { frequency := u32 (p.freq1 ||| shl32 p.freq2 16)
      envelope := u32 (shl32 p.attack 24 ||| shl32 p.decay 16 ||| p.sustain ||| shl32 p.release 8)
      volume := u32 p.volume
      flags := u32 (p.channel ||| shl32 p.mode 2) } ]

/-- What one run of a routine did: the host calls it made, and the track it
left, `none` when the run faulted (a read outside the buffer or a table, or
a remainder by zero). -/
structure StepResult where
  calls : List ToneCall
  track : Option Track
  deriving DecidableEq, Repr

/-- One tick of a track (`step`). -/
def step (self : Track) : StepResult :=
  if self.wait = 0 then
    -- Musical tone to be played.
    match self.tones[u32 (u32 (self.next * 3) + 0)]? with
    | none => ⟨[], none⟩
    | some note =>
    match self.tones[u32 (u32 (self.next * 3) + 1)]? with
    | none => ⟨[], none⟩
    | some wait =>
    -- Instrument in use.
    let instrumentCount := trackInstruments.length
    let instrument := self.instrument % u8 instrumentCount
    -- Play tone...
    let noteCount := trackNotes.length
    let played : Option (List ToneCall) :=
      if note < noteCount then
        match trackNotes[note]?, trackInstruments[instrument]? with
        | some freq, some row =>
          some (toneSub
            { freq1 := u32 freq, freq2 := 0, attack := 0, decay := 0, sustain := 0,
              release := u32 (wait * self.ticks), volume := self.volume,
              channel := row.1, mode := row.2 })
        | _, _ => none
      else some []
    match played with
    | none => ⟨[], none⟩
    | some calls =>
    -- Proceed to next note...
    if self.toneCount = 0 then ⟨calls, none⟩
    else
      let next := u32 (self.next + 1) % self.toneCount
      let self := { self with next := next, wait := u16 wait }
      -- Redirection...
      if note = TrackOpCodeEnd then ⟨calls, some { self with next := 0 }⟩
      else ⟨calls, some self⟩
  else
    ⟨[], some { self with wait := u16 (self.wait + 65536 - 1) }⟩

/-- The driver loop: `n` consecutive ticks of one track with no other
mutation; it stops at the first fault. -/
def steps : Nat → Track → StepResult
  | 0, t => ⟨[], some t⟩
  | n + 1, t =>
    match step t with
    | ⟨cs, none⟩ => ⟨cs, none⟩
    | ⟨cs, some t1⟩ => ⟨cs ++ (steps n t1).calls, (steps n t1).track⟩

/-- Number of completed decoding ticks (ticks entered with `wait = 0`, the
ones that advance `next`) among the first `n` ticks of a track. -/
def decodes : Nat → Track → Nat
  | 0, _ => 0
  | n + 1, t =>
    match step t with
    | ⟨_, none⟩ => 0
    | ⟨_, some t1⟩ => (if t.wait = 0 then 1 else 0) + decodes n t1

/-! ## Sample inputs -/

/-- A three-entry track: note 33 for two units, a rest (`0xFF`) for one
unit, then the end marker (`0xFE`). -/
def sampleTrack : Track :=
  { ticks := 2, instrument := 10,
    tones := [33, 2, 0, 255, 1, 0, 254, 0, 0], toneCount := 3 }

/-- A two-entry track without end marker, standing on its second entry:
note 12 for three units, then a rest (`0xFF`) for one unit. -/
def loopTrack : Track :=
  { next := 1, ticks := 4, instrument := 1,
    tones := [12, 3, 0, 255, 1, 0], toneCount := 2 }

/-- The parameters of the packing example of the specification. -/
def packSample : ToneParams :=
  { freq1 := 440, freq2 := 0, attack := 1, decay := 2, sustain := 3, release := 4,
    volume := 100, channel := 0, mode := 2 }

/-- Parameters whose sustain, release and channel exceed their field widths. -/
def wideSample : ToneParams :=
  { sustain := 256, release := 256, channel := 4 }

/-- Every field of a `ToneParams` fits the width it has in the packed words:
16 bits for the frequencies, 8 bits for the envelope phases, 2 bits for
channel and mode. -/
def ToneParams.inRange (p : ToneParams) : Prop :=
  p.freq1 < 65536 ∧ p.freq2 < 65536 ∧ p.attack < 256 ∧ p.decay < 256 ∧
  p.sustain < 256 ∧ p.release < 256 ∧ p.channel < 4 ∧ p.mode < 4

instance (p : ToneParams) : Decidable p.inRange := by
  unfold ToneParams.inRange; infer_instance

/-- The reduction of every field to its field width, as the specification
words it: frequencies modulo 2^16, envelope phases modulo 2^8, channel and
mode modulo 2^2, volume unchanged. -/
def ToneParams.reduceToWidth (p : ToneParams) : ToneParams :=
  { freq1 := p.freq1 % 65536, freq2 := p.freq2 % 65536,
    attack := p.attack % 256, decay := p.decay % 256,
    sustain := p.sustain % 256, release := p.release % 256,
    volume := p.volume, channel := p.channel % 4, mode := p.mode % 4 }

/-- The reduction that `toneSub` does perform: the bits a 32-bit left shift
drops (`freq2` modulo 2^16, `attack` modulo 2^8, `decay` modulo 2^16,
`release` modulo 2^24, `mode` modulo 2^30); the unshifted fields stay whole. -/
def ToneParams.dropShifted (p : ToneParams) : ToneParams :=
  { p with freq2 := p.freq2 % 65536, attack := p.attack % 256,
           decay := p.decay % 65536, release := p.release % 16777216,
           mode := p.mode % 1073741824 }

/-- A one-entry track at the top of every 8-bit range: the highest note for
255 units, with ticks, volume and instrument all 255. -/
def loudTrack : Track :=
  { ticks := 255, instrument := 255, volume := 255,
    tones := [59, 255, 0], toneCount := 1 }

/-- A three-entry track whose second entry is the end marker, so that its
third entry (note 40) lies after the marker. -/
def markedTrack : Track :=
  { ticks := 1, instrument := 0,
    tones := [33, 2, 0, 254, 0, 0, 40, 1, 0], toneCount := 3 }

/-- Ticks taken by entry `i` of a buffer: the decoding tick and one waiting
tick per unit of its duration byte. -/
def entryTicks (tones : List Nat) (i : Nat) : Nat :=
  tones.getD (i * 3 + 1) 0 + 1

/-- Ticks taken by the first `k` entries of a buffer. -/
def periodTicks (tones : List Nat) (k : Nat) : Nat :=
  ((List.range k).map (entryTicks tones)).sum

/-- Number of entries among the first `k` whose note byte is playable. -/
def playableCount (tones : List Nat) (k : Nat) : Nat :=
  (List.range k).countP (fun i => decide (tones.getD (i * 3) 0 < 60))

/-! ## Basic facts -/

theorem u32_of_lt {n : Nat} (h : n < 4294967296) : u32 n = n :=
  Nat.mod_eq_of_lt h

theorem u32_le (n : Nat) : u32 n ≤ n :=
  Nat.mod_le n _

theorem shl32_zero (k : Nat) : shl32 0 k = 0 := by
  simp [shl32, u32]

theorem trackNotes_length : trackNotes.length = 60 := rfl

theorem trackInstruments_length : trackInstruments.length = 9 := rfl

/-- Every row of the instrument table packs into the flags word without
loss. -/
theorem flags_of_row (i : Nat) (hi : i < 9) :
    ∃ row, trackInstruments[i]? = some row ∧
      u32 (row.1 ||| shl32 row.2 2) = row.1 ||| (row.2 <<< 2) := by
  interval_cases i <;> exact ⟨_, rfl, by decide⟩

/-- A byte read from the buffer of a well-formed track is below 256. -/
theorem byte_lt {self : Track} (hwf : self.wf) {i b : Nat}
    (h : self.tones[i]? = some b) : b < 256 := by
  obtain ⟨_, _, _, _, _, _, _, _, _, hb⟩ := hwf
  exact hb b (List.getElem?_mem h)

/-- An index that holds a byte of a well-formed track fits in 32 bits. -/
theorem index_lt {self : Track} (hwf : self.wf) {i b : Nat}
    (h : self.tones[i]? = some b) : i < 4294967296 := by
  obtain ⟨_, _, _, _, _, _, _, _, hlen, _⟩ := hwf
  obtain ⟨hi, _⟩ := List.getElem?_eq_some.mp h
  omega

/-- The envelope word of a tone played by `step`: only the release byte
pair is set, and nothing wraps. -/
theorem envelope_of_release (d ticks : Nat) (hd : d < 256) (ht : ticks < 256) :
    u32 (shl32 0 24 ||| shl32 0 16 ||| 0 ||| shl32 (u32 (d * ticks)) 8)
      = (d * ticks) <<< 8 := by
  have hprod : d * ticks ≤ 255 * 255 := Nat.mul_le_mul (by omega) (by omega)
  simp only [shl32_zero, Nat.zero_or]
  simp only [shl32, u32, Nat.shiftLeft_eq]
  omega

/-- The decoding tick, for a well-formed track whose entry at `next` lies in
the buffer: the new cursor and countdown, and the host calls made. -/
theorem step_decode (self : Track) (n d : Nat) (hwf : self.wf)
    (hwait : self.wait = 0) (hcount : 0 < self.toneCount)
    (hn : self.tones[self.next * 3]? = some n)
    (hd : self.tones[self.next * 3 + 1]? = some d) :
    ∃ calls,
      step self = ⟨calls, some { self with
        next := if n = TrackOpCodeEnd then 0 else (self.next + 1) % self.toneCount,
        wait := d }⟩ ∧
      (60 ≤ n → calls = []) ∧
      (n < 60 → ∃ freq row, trackNotes[n]? = some freq ∧
        trackInstruments[self.instrument % 9]? = some row ∧
        calls = [⟨freq, (d * self.ticks) <<< 8, self.volume, row.1 ||| (row.2 <<< 2)⟩]) := by
  have hdlt : d < 256 := byte_lt hwf hd
  have hi1 : self.next * 3 + 1 < 4294967296 := index_lt hwf hd
  obtain ⟨_, _, hticks, _, hvol, _, _, _, _, _⟩ := hwf
  have e0 : u32 (u32 (self.next * 3) + 0) = self.next * 3 := by
    simp only [u32]; omega
  have e1 : u32 (u32 (self.next * 3) + 1) = self.next * 3 + 1 := by
    simp only [u32]; omega
  have e2 : u32 (self.next + 1) = self.next + 1 := by
    simp only [u32]; omega
  have e3 : u16 d = d := by simp only [u16]; omega
  have hc : self.toneCount ≠ 0 := by omega
  obtain ⟨row, hrow, hflags⟩ := flags_of_row (self.instrument % 9) (Nat.mod_lt _ (by decide))
  by_cases hlt : n < 60
  · have hlt2 : n < trackNotes.length := hlt
    have hf : trackNotes[n]? = some trackNotes[n] := List.getElem?_eq_getElem hlt2
    have hfreq : trackNotes[n] < 4294967296 := by
      have : ∀ x ∈ trackNotes, x < 4294967296 := by decide
      exact this _ (List.getElem_mem _)
    refine ⟨[⟨trackNotes[n], (d * self.ticks) <<< 8, self.volume,
      row.1 ||| (row.2 <<< 2)⟩], ?_, ?_, ?_⟩
    · have hne : n ≠ TrackOpCodeEnd := by simp only [TrackOpCodeEnd]; omega
      have henv := envelope_of_release d self.ticks hdlt hticks
      have hfw : u32 (u32 trackNotes[n] ||| shl32 0 16) = trackNotes[n] := by
        simp [shl32_zero, u32_of_lt hfreq]
      have hvw : u32 self.volume = self.volume := u32_of_lt (by omega)
      simp only [step, hwait, e0, e1, hn, hd, trackNotes_length, trackInstruments_length,
        hlt, hf, hrow, hc, e2, e3, hne, if_true, if_false, toneSub, u8, henv, hfw, hvw, hflags]
    · intro h; omega
    · intro _; exact ⟨_, row, hf, hrow, rfl⟩
  · refine ⟨[], ?_, ?_, ?_⟩
    · simp only [step, hwait, e0, e1, hn, hd, trackNotes_length, hlt, hc, e2, e3,
        if_true, if_false]
      split <;> simp_all
    · intro _; rfl
    · intro h; omega

/-- The waiting tick: only the countdown changes. -/
theorem step_waiting (self : Track) (hpos : self.wait ≠ 0) (hlt : self.wait < 65536) :
    step self = ⟨[], some { self with wait := self.wait - 1 }⟩ := by
  have e : u16 (self.wait + 65536 - 1) = self.wait - 1 := by
    simp only [u16]; omega
  simp only [step, hpos, if_false, e]

/-- As long as the countdown lasts, `j` ticks only lower it by `j`. -/
theorem steps_waiting (j : Nat) : ∀ self : Track, self.wait < 65536 → j ≤ self.wait →
    steps j self = ⟨[], some { self with wait := self.wait - j }⟩ := by
  induction j with
  | zero => intro self _ _; rfl
  | succ j ih =>
    intro self hlt hj
    have h1 := step_waiting self (by omega) hlt
    have h2 := ih { self with wait := self.wait - 1 } (by simp only; omega) (by simp only; omega)
    have e : self.wait - 1 - j = self.wait - (j + 1) := by omega
    simp only [steps, h1, h2, List.append_nil, e]

/-- Ticks compose: `a + b` ticks are `a` ticks followed by `b` ticks. -/
theorem steps_add (a b : Nat) : ∀ (self mid : Track) (cs : List ToneCall),
    steps a self = ⟨cs, some mid⟩ →
    steps (a + b) self = ⟨cs ++ (steps b mid).calls, (steps b mid).track⟩ := by
  induction a with
  | zero =>
    intro self mid cs h
    simp only [steps, StepResult.mk.injEq, Option.some.injEq] at h
    obtain ⟨h1, h2⟩ := h
    subst h1 h2
    simp
  | succ a ih =>
    intro self mid cs h
    have hs : a + 1 + b = (a + b) + 1 := by omega
    rw [hs]
    rcases hstep : step self with ⟨c1, _ | t1⟩
    · simp [steps, hstep] at h
    · simp only [steps, hstep, StepResult.mk.injEq] at h ⊢
      rcases hrest : steps a t1 with ⟨c2, r⟩
      rw [hrest] at h
      obtain ⟨h1, h2⟩ := h
      simp only at h1 h2
      subst h2
      rw [ih t1 mid c2 hrest]
      simp [← h1]

/-- One tick of a finished run: the last tick after `n` ticks. -/
theorem steps_one (self : Track) : steps 1 self = step self := by
  rcases hstep : step self with ⟨c1, _ | t1⟩ <;> simp [steps, hstep]

/-- The words packed for a note played by `step`. -/
theorem toneSub_note (freq d ticks vol ch md : Nat) (hf : freq < 4294967296)
    (hd : d < 256) (ht : ticks < 256) (hv : vol < 256)
    (hfl : u32 (ch ||| shl32 md 2) = ch ||| (md <<< 2)) :
    toneSub { freq1 := freq, freq2 := 0, attack := 0, decay := 0, sustain := 0,
              release := d * ticks, volume := vol, channel := ch, mode := md }
      = [⟨freq, (d * ticks) <<< 8, vol, ch ||| (md <<< 2)⟩] := by
  have hprod : d * ticks ≤ 255 * 255 := Nat.mul_le_mul (by omega) (by omega)
  have henv := envelope_of_release d ticks hd ht
  rw [u32_of_lt (show d * ticks < 4294967296 by omega)] at henv
  have hfw : u32 (freq ||| shl32 0 16) = freq := by simp [shl32_zero, u32_of_lt hf]
  simp only [toneSub, henv, hfw, hfl, u32_of_lt (show vol < 4294967296 by omega)]

/-! ## The decoding tick -/

/-- C1: on a decoding tick (wait = 0, toneCount > 0, entry at `next` in the
buffer) whose note byte `n` is below 60, `step` makes exactly one host call:
frequency word `trackNotes[n]`, envelope word `(d * ticks) << 8` (the packed
parameters have attack, decay and sustain 0 and release `d * ticks`), volume
word the track's volume, flags word `channel | (mode << 2)` for the row
`trackInstruments[instrument mod 9]`. -/
theorem step_plays_note (self : Track) (n d : Nat) (hwf : self.wf)
    (hwait : self.wait = 0) (hcount : 0 < self.toneCount)
    (hn : self.tones[self.next * 3]? = some n)
    (hd : self.tones[self.next * 3 + 1]? = some d) (hlt : n < 60) :
    ∃ freq channel mode,
      trackNotes[n]? = some freq ∧
      trackInstruments[self.instrument % 9]? = some (channel, mode) ∧
      (step self).calls =
        [⟨freq, (d * self.ticks) <<< 8, self.volume, channel ||| (mode <<< 2)⟩] ∧
      (step self).calls =
        toneSub { freq1 := freq, freq2 := 0, attack := 0, decay := 0, sustain := 0,
                  release := d * self.ticks, volume := self.volume,
                  channel := channel, mode := mode } := by
  obtain ⟨calls, hstep, _, hplay⟩ := step_decode self n d hwf hwait hcount hn hd
  obtain ⟨freq, row, hfreq, hrow, hcalls⟩ := hplay hlt
  have hdlt : d < 256 := byte_lt hwf hd
  obtain ⟨_, _, hticks, _, hvol, _, _, _, _, _⟩ := hwf
  have hfl : freq < 4294967296 := by
    have : ∀ x ∈ trackNotes, x < 4294967296 := by decide
    exact this _ (List.getElem?_mem hfreq)
  obtain ⟨row2, hrow2, hflags⟩ := flags_of_row (self.instrument % 9) (Nat.mod_lt _ (by decide))
  have hrr : row2 = row := by rw [hrow] at hrow2; exact (Option.some.inj hrow2).symm
  subst hrr
  refine ⟨freq, row2.1, row2.2, hfreq, hrow, ?_, ?_⟩
  · rw [hstep, hcalls]
  · rw [hstep, hcalls, toneSub_note freq d self.ticks self.volume row2.1 row2.2 hfl hdlt hticks
      hvol hflags]

/-- Instance of C1 on the first entry of the sample track. -/
theorem step_plays_note_witness :
    sampleTrack.wf ∧
    ∃ freq channel mode,
      trackNotes[33]? = some freq ∧
      trackInstruments[sampleTrack.instrument % 9]? = some (channel, mode) ∧
      (step sampleTrack).calls =
        [⟨freq, (2 * sampleTrack.ticks) <<< 8, sampleTrack.volume, channel ||| (mode <<< 2)⟩] ∧
      (step sampleTrack).calls =
        toneSub { freq1 := freq, freq2 := 0, attack := 0, decay := 0, sustain := 0,
                  release := 2 * sampleTrack.ticks, volume := sampleTrack.volume,
                  channel := channel, mode := mode } :=
  ⟨by decide, step_plays_note sampleTrack 33 2 (by decide) rfl (by decide) rfl rfl (by decide)⟩

/-- C2: with wait = k (any k, so also k > 0; toneCount > 0, entry at `next`
in the buffer), the first `k` ticks make no host call, leave `next` and every other field alone
and bring wait down to 0 (after `j ≤ k` ticks it is `k - j`); tick `k + 1`
decodes the entry at `next`: wait becomes its duration byte and `next`
moves on (to 0 after the end marker, else to `(next + 1) mod toneCount`). -/
theorem wait_countdown (self : Track) (k n d : Nat) (hwf : self.wf)
    (hk : self.wait = k) (hcount : 0 < self.toneCount)
    (hn : self.tones[self.next * 3]? = some n)
    (hd : self.tones[self.next * 3 + 1]? = some d) :
    (∀ j, j ≤ k → steps j self = ⟨[], some { self with wait := k - j }⟩) ∧
    steps k self = ⟨[], some { self with wait := 0 }⟩ ∧
    steps (k + 1) self =
      ⟨(step { self with wait := 0 }).calls,
       some { self with
         next := if n = TrackOpCodeEnd then 0 else (self.next + 1) % self.toneCount,
         wait := d }⟩ := by
  have hlt : self.wait < 65536 := hwf.2.1
  have hall : ∀ j, j ≤ k → steps j self = ⟨[], some { self with wait := k - j }⟩ := by
    intro j hj
    have := steps_waiting j self hlt (by omega)
    rw [hk] at this
    exact this
  have hkk : steps k self = ⟨[], some { self with wait := 0 }⟩ := by
    have := hall k (Nat.le_refl k)
    rwa [Nat.sub_self] at this
  refine ⟨hall, hkk, ?_⟩
  have hwf0 : ({ self with wait := 0 } : Track).wf := by
    obtain ⟨h1, _, h3, h4, h5, h6, h7, h8, h9, h10⟩ := hwf
    exact ⟨h1, Nat.zero_lt_succ _, h3, h4, h5, h6, h7, h8, h9, h10⟩
  obtain ⟨calls, hstep, _, _⟩ :=
    step_decode { self with wait := 0 } n d hwf0 rfl hcount hn hd
  rw [steps_add k 1 self _ _ hkk, steps_one, hstep]
  simp

/-- Instance of C2: the sample track with three ticks left to wait. -/
theorem wait_countdown_witness :
    (∀ j, j ≤ 3 → steps j { sampleTrack with wait := 3 }
        = ⟨[], some { sampleTrack with wait := 3 - j }⟩) ∧
    steps 3 { sampleTrack with wait := 3 } = ⟨[], some { sampleTrack with wait := 0 }⟩ ∧
    steps (3 + 1) { sampleTrack with wait := 3 } =
      ⟨(step { sampleTrack with wait := 0 }).calls,
       some { sampleTrack with
         next := if 33 = TrackOpCodeEnd then 0 else (0 + 1) % 3,
         wait := 2 }⟩ :=
  wait_countdown { sampleTrack with wait := 3 } 3 33 2 (by decide) rfl (by decide) rfl rfl

/-- C3: on a decoding tick (wait = 0, toneCount > 0, entry at `next` in the
buffer) the new wait is the raw duration byte, also for the end marker, and
for every note byte other than the end marker the new `next` is
`(next + 1) mod toneCount`; neither depends on `ticks`. -/
theorem step_advances (self : Track) (n d : Nat) (hwf : self.wf)
    (hwait : self.wait = 0) (hcount : 0 < self.toneCount)
    (hn : self.tones[self.next * 3]? = some n)
    (hd : self.tones[self.next * 3 + 1]? = some d) :
    ∃ t1, (step self).track = some t1 ∧ t1.wait = d ∧
      (n ≠ TrackOpCodeEnd → t1.next = (self.next + 1) % self.toneCount) ∧
      ∀ x, x < 256 → ∃ t2, (step { self with ticks := x }).track = some t2 ∧
        t2.wait = d ∧ t2.next = t1.next := by
  obtain ⟨calls, hstep, _, _⟩ := step_decode self n d hwf hwait hcount hn hd
  refine ⟨_, by rw [hstep], rfl, ?_, ?_⟩
  · intro hne; simp only [hne, if_false]
  · intro x hx
    have hwfx : ({ self with ticks := x } : Track).wf := by
      obtain ⟨h1, h2, _, h4, h5, h6, h7, h8, h9, h10⟩ := hwf
      exact ⟨h1, h2, hx, h4, h5, h6, h7, h8, h9, h10⟩
    obtain ⟨calls2, hstep2, _, _⟩ :=
      step_decode { self with ticks := x } n d hwfx hwait hcount hn hd
    rw [hstep2]
    exact ⟨_, rfl, rfl, rfl⟩

/-- Instance of C3 on the first entry of the sample track. -/
theorem step_advances_witness :
    ∃ t1, (step sampleTrack).track = some t1 ∧ t1.wait = 2 ∧
      (33 ≠ TrackOpCodeEnd → t1.next = (sampleTrack.next + 1) % sampleTrack.toneCount) ∧
      ∀ x, x < 256 → ∃ t2, (step { sampleTrack with ticks := x }).track = some t2 ∧
        t2.wait = 2 ∧ t2.next = t1.next :=
  step_advances sampleTrack 33 2 (by decide) rfl (by decide) rfl rfl

/-- C4: on a decoding tick (wait = 0, toneCount > 0, entry at `next` in the
buffer) whose note byte is the end marker `0xFE`, `step` makes no host call
and leaves `next = 0`, whatever `next` was. -/
theorem step_end_marker (self : Track) (d : Nat) (hwf : self.wf)
    (hwait : self.wait = 0) (hcount : 0 < self.toneCount)
    (hn : self.tones[self.next * 3]? = some TrackOpCodeEnd)
    (hd : self.tones[self.next * 3 + 1]? = some d) :
    (step self).calls = [] ∧ ∃ t1, (step self).track = some t1 ∧ t1.next = 0 := by
  obtain ⟨calls, hstep, hrest, _⟩ := step_decode self TrackOpCodeEnd d hwf hwait hcount hn hd
  have hc : calls = [] := hrest (by decide)
  subst hc
  exact ⟨by rw [hstep], _, by rw [hstep], by simp⟩

/-- Instance of C4: the sample track standing on its end marker. -/
theorem step_end_marker_witness :
    (step { sampleTrack with next := 2 }).calls = [] ∧
    ∃ t1, (step { sampleTrack with next := 2 }).track = some t1 ∧ t1.next = 0 :=
  step_end_marker { sampleTrack with next := 2 } 0 (by decide) rfl (by decide) rfl rfl

/-- Replacing one byte of the buffer by a byte keeps a track well-formed. -/
theorem wf_set_byte {self : Track} (hwf : self.wf) (i m : Nat) (hm : m < 256) :
    ({ self with tones := self.tones.set i m } : Track).wf := by
  obtain ⟨h1, h2, h3, h4, h5, h6, h7, h8, h9, h10⟩ := hwf
  refine ⟨h1, h2, h3, h4, h5, h6, h7, h8, ?_, ?_⟩
  · simpa using h9
  · intro b hb
    rcases List.mem_or_eq_of_mem_set hb with h | h
    · exact h10 b h
    · omega

/-- C5 (rest suppression): on a decoding tick (wait = 0, toneCount > 0, entry
at `next` in the buffer) whose note byte `n` has `n ≥ 60` and `n ≠ 0xFE`,
`step` makes no host call, and the track it leaves agrees in every field
with the one left by the same tick on the buffer in which that note byte is
replaced by a playable note `m < 60` (each track keeping its own buffer),
a tick that does make one host call. -/
theorem step_rest (self : Track) (n d m : Nat) (hwf : self.wf)
    (hwait : self.wait = 0) (hcount : 0 < self.toneCount)
    (hn : self.tones[self.next * 3]? = some n)
    (hd : self.tones[self.next * 3 + 1]? = some d)
    (hge : 60 ≤ n) (hne : n ≠ TrackOpCodeEnd) (hm : m < 60) :
    (step self).calls = [] ∧
    ∃ t1, (step self).track = some t1 ∧
      (step { self with tones := self.tones.set (self.next * 3) m }).track
        = some { t1 with tones := self.tones.set (self.next * 3) m } ∧
      (step { self with tones := self.tones.set (self.next * 3) m }).calls.length = 1 := by
  obtain ⟨calls, hstep, hrest, _⟩ := step_decode self n d hwf hwait hcount hn hd
  have hc : calls = [] := hrest hge
  subst hc
  have hwf2 := wf_set_byte hwf (self.next * 3) m (by omega)
  have hlen : self.next * 3 < self.tones.length := (List.getElem?_eq_some.mp hn).1
  have hn2 : (self.tones.set (self.next * 3) m)[self.next * 3]? = some m := by
    simp [List.getElem?_set_self, hlen]
  have hd2 : (self.tones.set (self.next * 3) m)[self.next * 3 + 1]? = some d := by
    rw [List.getElem?_set_ne (by omega)]; exact hd
  obtain ⟨calls2, hstep2, _, hplay⟩ :=
    step_decode { self with tones := self.tones.set (self.next * 3) m } m d hwf2 hwait hcount
      hn2 hd2
  obtain ⟨freq, row, _, _, hcalls2⟩ := hplay hm
  have hm2 : m ≠ TrackOpCodeEnd := by simp only [TrackOpCodeEnd]; omega
  rw [hstep, hstep2, hcalls2]
  refine ⟨rfl, _, rfl, ?_, rfl⟩
  simp only [hne, hm2, if_false]

/-- Instance of C5: the rest (`0xFF`) in the sample track against note 12. -/
theorem step_rest_witness :
    (step { sampleTrack with next := 1 }).calls = [] ∧
    ∃ t1, (step { sampleTrack with next := 1 }).track = some t1 ∧
      (step { sampleTrack with next := 1,
                               tones := sampleTrack.tones.set (1 * 3) 12 }).track
        = some { t1 with tones := sampleTrack.tones.set (1 * 3) 12 } ∧
      (step { sampleTrack with next := 1,
                               tones := sampleTrack.tones.set (1 * 3) 12 }).calls.length = 1 :=
  step_rest { sampleTrack with next := 1 } 255 1 12 (by decide) rfl (by decide) rfl rfl
    (by decide) (by decide) (by decide)

/-! ## Runs of ticks -/

/-- Without any assumption on field ranges: when `toneCount > 0` and the
entry at `next` lies in the buffer, a tick does not fault and changes at
most `next` and `wait`; the new `next` is the old one (waiting), 0 (end
marker) or `(next + 1) mod 2^32 mod toneCount`. -/
theorem step_total (self : Track) (hcount : 0 < self.toneCount)
    (hentry : self.next * 3 + 1 < self.tones.length) :
    ∃ cs nx w, step self = ⟨cs, some { self with next := nx, wait := w }⟩ ∧
      (nx = self.next ∨ nx = 0 ∨ nx = u32 (self.next + 1) % self.toneCount) := by
  have hc : self.toneCount ≠ 0 := by omega
  suffices h : ∃ nx w, (step self).track = some { self with next := nx, wait := w } ∧
      (nx = self.next ∨ nx = 0 ∨ nx = u32 (self.next + 1) % self.toneCount) by
    obtain ⟨nx, w, h1, h2⟩ := h
    rcases hs : step self with ⟨cs, tr⟩
    rw [hs] at h1
    simp only at h1
    subst h1
    exact ⟨cs, nx, w, rfl, h2⟩
  by_cases hwait : self.wait = 0
  · have b0 : u32 (u32 (self.next * 3) + 0) < self.tones.length := by
      have := u32_le (self.next * 3)
      have := u32_le (u32 (self.next * 3) + 0)
      omega
    have b1 : u32 (u32 (self.next * 3) + 1) < self.tones.length := by
      have := u32_le (self.next * 3)
      have := u32_le (u32 (self.next * 3) + 1)
      omega
    have i0 : (self.instrument % 9) < trackInstruments.length :=
      Nat.mod_lt _ (by decide)
    by_cases hlt : self.tones[u32 (u32 (self.next * 3) + 0)] < 60
    · have hlt2 : self.tones[u32 (u32 (self.next * 3) + 0)] < trackNotes.length := hlt
      have hne : self.tones[u32 (u32 (self.next * 3) + 0)] ≠ TrackOpCodeEnd := by
        simp only [TrackOpCodeEnd]; omega
      refine ⟨u32 (self.next + 1) % self.toneCount,
        u16 self.tones[u32 (u32 (self.next * 3) + 1)], ?_, Or.inr (Or.inr rfl)⟩
      simp only [step, hwait, if_true, List.getElem?_eq_getElem b0, List.getElem?_eq_getElem b1,
        trackNotes_length, trackInstruments_length, hlt, u8, Nat.reduceMod,
        List.getElem?_eq_getElem hlt2, List.getElem?_eq_getElem i0, hc, if_false, hne]
    · by_cases hend : self.tones[u32 (u32 (self.next * 3) + 0)] = TrackOpCodeEnd
      · refine ⟨0, u16 self.tones[u32 (u32 (self.next * 3) + 1)], ?_, Or.inr (Or.inl rfl)⟩
        simp only [step, hwait, if_true, List.getElem?_eq_getElem b0,
          List.getElem?_eq_getElem b1, trackNotes_length, hlt, hc, if_false, eq_true hend]
      · refine ⟨u32 (self.next + 1) % self.toneCount,
          u16 self.tones[u32 (u32 (self.next * 3) + 1)], ?_, Or.inr (Or.inr rfl)⟩
        simp only [step, hwait, if_true, List.getElem?_eq_getElem b0,
          List.getElem?_eq_getElem b1, trackNotes_length, hlt, hc, if_false, hend]
  · refine ⟨self.next, u16 (self.wait + 65536 - 1), ?_, Or.inl rfl⟩
    simp only [step, hwait, if_false]

/-- Under the loader's precondition no run faults. -/
theorem steps_total (m : Nat) : ∀ (self : Track), 0 < self.toneCount →
    self.next < self.toneCount → self.toneCount * 3 ≤ self.tones.length →
    ∃ cs t1, steps m self = ⟨cs, some t1⟩ := by
  induction m with
  | zero => intro self _ _ _; exact ⟨[], self, rfl⟩
  | succ m ih =>
    intro self hcount hnext hbuf
    obtain ⟨cs, nx, w, hstep, hnx⟩ := step_total self hcount (by omega)
    have hnx2 : nx < self.toneCount := by
      rcases hnx with h1 | h1 | h1
      · omega
      · omega
      · rw [h1]; exact Nat.mod_lt _ hcount
    obtain ⟨cs2, t1, h2⟩ := ih { self with next := nx, wait := w } hcount hnx2 hbuf
    exact ⟨cs ++ cs2, t1, by simp only [steps, hstep, h2]⟩

/-- Whatever the buffer holds: a tick that did not fault left `toneCount`
and the buffer alone and kept `next` below `toneCount`. -/
theorem step_next_lt (self t1 : Track) (hcount : 0 < self.toneCount)
    (hnext : self.next < self.toneCount) (h : (step self).track = some t1) :
    t1.toneCount = self.toneCount ∧ t1.tones = self.tones ∧ t1.next < self.toneCount := by
  have hmod : u32 (self.next + 1) % self.toneCount < self.toneCount := Nat.mod_lt _ hcount
  unfold step at h
  split at h
  · split at h
    · simp at h
    · split at h
      · simp at h
      · simp only at h
        split at h
        · simp at h
        · split at h
          · simp at h
          · split at h
            · simp only [Option.some.injEq] at h
              subst h
              exact ⟨rfl, rfl, hcount⟩
            · simp only [Option.some.injEq] at h
              subst h
              exact ⟨rfl, rfl, hmod⟩
  · simp only [Option.some.injEq] at h
    subst h
    exact ⟨rfl, rfl, hnext⟩

/-- A run that did not fault left `toneCount` and the buffer as they were and
kept `next` below `toneCount`. -/
theorem steps_next_lt (m : Nat) : ∀ (self t1 : Track), 0 < self.toneCount →
    self.next < self.toneCount → (steps m self).track = some t1 →
    t1.toneCount = self.toneCount ∧ t1.tones = self.tones ∧ t1.next < self.toneCount := by
  induction m with
  | zero =>
    intro self t1 _ hnext h
    simp only [steps, Option.some.injEq] at h
    subst h
    exact ⟨rfl, rfl, hnext⟩
  | succ m ih =>
    intro self t1 hcount hnext h
    rcases hs : step self with ⟨cs, _ | t0⟩
    · simp [steps, hs] at h
    · simp only [steps, hs] at h
      obtain ⟨h1, h2, h3⟩ := step_next_lt self t0 hcount hnext (by rw [hs])
      obtain ⟨k1, k2, k3⟩ := ih t0 t1 (by omega) (by omega) h
      exact ⟨by omega, by rw [k2, h2], by omega⟩

/-- C10: with toneCount > 0 and next < toneCount, a tick whose entry lies in
the buffer leaves a track with next < toneCount; so does every run of ticks
that does not fault, whatever the buffer holds (end markers included), and
when the buffer has at least 3 * toneCount bytes no run faults. -/
theorem next_in_range (self : Track) (hcount : 0 < self.toneCount)
    (hnext : self.next < self.toneCount) :
    (self.next * 3 + 1 < self.tones.length →
      ∃ t1, (step self).track = some t1 ∧ t1.toneCount = self.toneCount ∧
        t1.next < t1.toneCount) ∧
    (∀ m t1, (steps m self).track = some t1 →
      t1.toneCount = self.toneCount ∧ t1.next < t1.toneCount) ∧
    (self.toneCount * 3 ≤ self.tones.length →
      ∀ m, ∃ t1, (steps m self).track = some t1 ∧ t1.toneCount = self.toneCount ∧
        t1.next < t1.toneCount) := by
  refine ⟨?_, ?_, ?_⟩
  · intro hentry
    obtain ⟨cs, nx, w, hstep, _⟩ := step_total self hcount hentry
    obtain ⟨h1, _, h3⟩ := step_next_lt self _ hcount hnext (by rw [hstep])
    exact ⟨_, by rw [hstep], h1, by rw [h1]; exact h3⟩
  · intro m t1 h
    obtain ⟨h1, _, h3⟩ := steps_next_lt m self t1 hcount hnext h
    exact ⟨h1, by rw [h1]; exact h3⟩
  · intro hbuf m
    obtain ⟨cs, t1, h⟩ := steps_total m self hcount hnext hbuf
    obtain ⟨h1, _, h3⟩ := steps_next_lt m self t1 hcount hnext (by rw [h])
    exact ⟨t1, by rw [h], h1, by rw [h1]; exact h3⟩

/-- Instance of C10: the sample track standing on its last entry. -/
theorem next_in_range_witness :
    ({ sampleTrack with next := 2 } : Track).next * 3 + 1
        < ({ sampleTrack with next := 2 } : Track).tones.length ∧
    ∃ t1, (step { sampleTrack with next := 2 }).track = some t1 ∧
      t1.toneCount = sampleTrack.toneCount ∧ t1.next < t1.toneCount :=
  ⟨by decide,
   (next_in_range { sampleTrack with next := 2 } (by decide) (by decide)).1 (by decide)⟩

/-- One tick under the loader's precondition (well-formed track, toneCount > 0,
next < toneCount, at least 3 * toneCount bytes): it does not fault, the
precondition holds again, and the new cursor and countdown are as decoded. -/
theorem step_loaded (self : Track) (hwf : self.wf) (hcount : 0 < self.toneCount)
    (hnext : self.next < self.toneCount) (hbuf : self.toneCount * 3 ≤ self.tones.length) :
    ∃ cs t1, step self = ⟨cs, some t1⟩ ∧ t1.wf ∧ t1.toneCount = self.toneCount ∧
      t1.tones = self.tones ∧ t1.next < self.toneCount ∧
      (self.wait ≠ 0 → t1.next = self.next ∧ t1.wait = self.wait - 1 ∧ cs = []) ∧
      (self.wait = 0 → ∃ n d, self.tones[self.next * 3]? = some n ∧
        self.tones[self.next * 3 + 1]? = some d ∧ t1.wait = d ∧
        t1.next = if n = TrackOpCodeEnd then 0 else (self.next + 1) % self.toneCount) := by
  have hwf' := hwf
  obtain ⟨h1, h2, h3, h4, h5, h6, h7, h8, h9, h10⟩ := hwf'
  by_cases hwait : self.wait = 0
  · have i0 : self.next * 3 < self.tones.length := by omega
    have i1 : self.next * 3 + 1 < self.tones.length := by omega
    have hn := List.getElem?_eq_getElem i0
    have hd := List.getElem?_eq_getElem i1
    obtain ⟨calls, hstep, _, _⟩ := step_decode self _ _ hwf hwait hcount hn hd
    have hdlt : self.tones[self.next * 3 + 1] < 256 := byte_lt hwf hd
    have hmod : (self.next + 1) % self.toneCount < self.toneCount := Nat.mod_lt _ hcount
    refine ⟨calls, _, hstep, ?_, rfl, rfl, ?_, fun h => absurd hwait h, fun _ =>
      ⟨_, _, hn, hd, rfl, rfl⟩⟩
    · refine ⟨?_, ?_, h3, h4, h5, h6, h7, h8, h9, h10⟩
      · show (if _ then 0 else _) < 4294967296
        split
        · decide
        · exact Nat.lt_trans hmod h8
      · show self.tones[self.next * 3 + 1] < 65536
        omega
    · show (if _ then 0 else _) < self.toneCount
      split
      · exact hcount
      · exact hmod
  · refine ⟨[], _, step_waiting self hwait h2, ?_, rfl, rfl, hnext, fun _ => ⟨rfl, rfl, rfl⟩,
      fun h => absurd h hwait⟩
    exact ⟨h1, by show self.wait - 1 < 65536; omega, h3, h4, h5, h6, h7, h8, h9, h10⟩

/-- Decoding ticks add up along a run. -/
theorem decodes_add (a b : Nat) : ∀ (self mid : Track) (cs : List ToneCall),
    steps a self = ⟨cs, some mid⟩ →
    decodes (a + b) self = decodes a self + decodes b mid := by
  induction a with
  | zero =>
    intro self mid cs h
    simp only [steps, StepResult.mk.injEq, Option.some.injEq] at h
    obtain ⟨_, h2⟩ := h
    subst h2
    simp [decodes]
  | succ a ih =>
    intro self mid cs h
    have hs : a + 1 + b = (a + b) + 1 := by omega
    rw [hs]
    rcases hstep : step self with ⟨c1, _ | t1⟩
    · simp [steps, hstep] at h
    · simp only [steps, hstep, StepResult.mk.injEq] at h
      rcases hrest : steps a t1 with ⟨c2, r⟩
      rw [hrest] at h
      obtain ⟨_, h2⟩ := h
      simp only at h2
      subst h2
      simp only [decodes, hstep, ih t1 mid c2 hrest]
      omega

/-- No decoding tick happens while the countdown lasts. -/
theorem decodes_waiting (j : Nat) : ∀ self : Track, self.wait < 65536 → j ≤ self.wait →
    decodes j self = 0 := by
  induction j with
  | zero => intro self _ _; rfl
  | succ j ih =>
    intro self hlt hj
    have hne : self.wait ≠ 0 := by omega
    have h1 := step_waiting self hne hlt
    have h2 := ih { self with wait := self.wait - 1 } (by simp only; omega) (by simp only; omega)
    simp only [decodes, h1, h2, hne, if_false]

/-- On a track without end markers the cursor after a run is the start
cursor plus the number of decoding ticks, modulo `toneCount`. -/
theorem steps_cursor (m : Nat) : ∀ self : Track, self.wf → 0 < self.toneCount →
    self.next < self.toneCount → self.toneCount * 3 ≤ self.tones.length →
    (∀ i, i < self.toneCount → self.tones[i * 3]? ≠ some TrackOpCodeEnd) →
    ∃ cs t1, steps m self = ⟨cs, some t1⟩ ∧ t1.wf ∧ t1.toneCount = self.toneCount ∧
      t1.tones = self.tones ∧
      t1.next = (self.next + decodes m self) % self.toneCount := by
  induction m with
  | zero =>
    intro self hwf _ hnext _ _
    exact ⟨[], self, rfl, hwf, rfl, rfl, by simp [decodes, Nat.mod_eq_of_lt hnext]⟩
  | succ m ih =>
    intro self hwf hcount hnext hbuf hnoend
    obtain ⟨cs, t0, hstep, hwf0, hN, htones, hlt, hW, hD⟩ :=
      step_loaded self hwf hcount hnext hbuf
    obtain ⟨cs2, t1, hrun, hwf1, hN1, htones1, hnext1⟩ :=
      ih t0 hwf0 (by omega) (by omega) (by rw [hN, htones]; exact hbuf)
        (by rw [hN, htones]; exact hnoend)
    refine ⟨cs ++ cs2, t1, by simp only [steps, hstep, hrun], hwf1, by omega,
      by rw [htones1, htones], ?_⟩
    rw [hnext1, hN]
    simp only [decodes, hstep]
    by_cases hwait : self.wait = 0
    · obtain ⟨n, d, hn, _, _, hnx⟩ := hD hwait
      have hne : n ≠ TrackOpCodeEnd := by
        intro h
        exact hnoend self.next hnext (by rw [hn, h])
      rw [hnx]
      simp only [hne, hwait, if_true, if_false]
      rw [Nat.mod_add_mod]
      congr 1
      omega
    · obtain ⟨hnx, _, _⟩ := hW hwait
      rw [hnx]
      simp only [hwait, if_false, Nat.zero_add]

/-- Under the loader's precondition every number of decoding ticks is reached
by some run: the player never stalls. -/
theorem decodes_reach (j : Nat) : ∀ self : Track, self.wf → 0 < self.toneCount →
    self.next < self.toneCount → self.toneCount * 3 ≤ self.tones.length →
    ∃ m, decodes m self = j := by
  induction j with
  | zero => intro self _ _ _ _; exact ⟨0, rfl⟩
  | succ j ih =>
    intro self hwf hcount hnext hbuf
    have hlt : self.wait < 65536 := hwf.2.1
    have hrun := steps_waiting self.wait self hlt (Nat.le_refl _)
    rw [Nat.sub_self] at hrun
    have hwf0 : ({ self with wait := 0 } : Track).wf := by
      obtain ⟨h1, _, h3, h4, h5, h6, h7, h8, h9, h10⟩ := hwf
      exact ⟨h1, Nat.zero_lt_succ _, h3, h4, h5, h6, h7, h8, h9, h10⟩
    obtain ⟨cs, t0, hstep, hwf1, hN, htones, hlt1, _, _⟩ :=
      step_loaded { self with wait := 0 } hwf0 hcount hnext hbuf
    obtain ⟨m, hm⟩ := ih t0 hwf1 (by rw [hN]; exact hcount) (by rw [hN]; exact hlt1)
      (by rw [hN, htones]; exact hbuf)
    refine ⟨self.wait + (m + 1), ?_⟩
    rw [decodes_add self.wait (m + 1) self _ _ hrun, decodes_waiting self.wait self hlt
      (Nat.le_refl _)]
    simp only [decodes, hstep, if_true, hm]
    omega

/-- C6 (cursor wrap-around): for a well-formed track with toneCount = N > 0,
next < N, at least 3 * N bytes and no end marker among its N note bytes, the
cursor after any run is (next + number of decoding ticks) mod N; a run with
exactly N decoding ticks exists, and every such run, whatever the waiting
ticks in between and whatever notes and durations are decoded, ends with
`next` at its original value. -/
theorem cursor_wraps (self : Track) (hwf : self.wf) (hcount : 0 < self.toneCount)
    (hnext : self.next < self.toneCount) (hbuf : self.toneCount * 3 ≤ self.tones.length)
    (hnoend : ∀ i, i < self.toneCount → self.tones[i * 3]? ≠ some TrackOpCodeEnd) :
    (∃ m, decodes m self = self.toneCount) ∧
    (∀ m, ∃ t1, (steps m self).track = some t1 ∧
      t1.next = (self.next + decodes m self) % self.toneCount) ∧
    (∀ m, decodes m self = self.toneCount →
      ∃ t1, (steps m self).track = some t1 ∧ t1.next = self.next) := by
  refine ⟨decodes_reach self.toneCount self hwf hcount hnext hbuf, ?_, ?_⟩
  · intro m
    obtain ⟨cs, t1, hrun, _, _, _, hnx⟩ := steps_cursor m self hwf hcount hnext hbuf hnoend
    exact ⟨t1, by rw [hrun], hnx⟩
  · intro m hm
    obtain ⟨cs, t1, hrun, _, _, _, hnx⟩ := steps_cursor m self hwf hcount hnext hbuf hnoend
    refine ⟨t1, by rw [hrun], ?_⟩
    rw [hnx, hm, Nat.add_mod_right, Nat.mod_eq_of_lt hnext]

/-- Instance of C6: a two-entry track (a note, then a rest) started on its
second entry; five ticks hold exactly two decoding ticks. -/
theorem cursor_wraps_witness :
    decodes 5 loopTrack = loopTrack.toneCount ∧
    ∃ t1, (steps 5 loopTrack).track = some t1 ∧ t1.next = loopTrack.next :=
  ⟨by decide,
   (cursor_wraps loopTrack (by decide) (by decide) (by decide) (by decide)
      (by decide)).2.2 5 (by decide)⟩

/-! ## Packing -/

theorem shl32_lt (a k : Nat) : shl32 a k < 4294967296 :=
  Nat.mod_lt _ (by decide)

/-- The bitwise or of two 32-bit values is a 32-bit value. -/
theorem u32_or {x y : Nat} (hx : x < 4294967296) (hy : y < 4294967296) :
    u32 (x ||| y) = x ||| y := by
  have h : x ||| y < 2 ^ 32 := Nat.or_lt_two_pow (by simpa using hx) (by simpa using hy)
  exact u32_of_lt (by simpa using h)

theorem or_lt32 {x y : Nat} (hx : x < 4294967296) (hy : y < 4294967296) :
    x ||| y < 4294967296 := by
  have h : x ||| y < 2 ^ 32 := Nat.or_lt_two_pow (by simpa using hx) (by simpa using hy)
  simpa using h

/-- C7 (amended): for every ToneParams with 32-bit fields, `toneSub` makes
exactly one host call, with frequency `freq1 | (freq2 << 16)`, envelope
`(attack << 24) | (decay << 16) | sustain | (release << 8)`, volume
unmodified and flags `channel | (mode << 2)`, shifts wrapping modulo 2^32;
for the packing example the words are 440, 0x01020403, 100 and 8. -/
theorem toneSub_words :
    (∀ p : ToneParams, p.wf →
      toneSub p =
        [⟨p.freq1 ||| (p.freq2 <<< 16) % 2 ^ 32,
          (p.attack <<< 24) % 2 ^ 32 ||| (p.decay <<< 16) % 2 ^ 32 ||| p.sustain
            ||| (p.release <<< 8) % 2 ^ 32,
          p.volume,
          p.channel ||| (p.mode <<< 2) % 2 ^ 32⟩]) ∧
    toneSub packSample = [⟨440, 0x01020403, 100, 8⟩] := by
  refine ⟨?_, by decide⟩
  intro p hwf
  obtain ⟨h1, _, _, _, h5, _, h7, h8, _⟩ := hwf
  have e1 := u32_or h1 (shl32_lt p.freq2 16)
  have e2 := u32_or (or_lt32 (or_lt32 (shl32_lt p.attack 24) (shl32_lt p.decay 16)) h5)
    (shl32_lt p.release 8)
  have e3 := u32_or h8 (shl32_lt p.mode 2)
  simp only [toneSub, e1, e2, e3, u32_of_lt h7]
  rfl

/-- Instance of C7 (first part) at the packing example. -/
theorem toneSub_words_witness :
    packSample.wf ∧
    toneSub packSample =
      [⟨packSample.freq1 ||| (packSample.freq2 <<< 16) % 2 ^ 32,
        (packSample.attack <<< 24) % 2 ^ 32 ||| (packSample.decay <<< 16) % 2 ^ 32
          ||| packSample.sustain ||| (packSample.release <<< 8) % 2 ^ 32,
        packSample.volume,
        packSample.channel ||| (packSample.mode <<< 2) % 2 ^ 32⟩] :=
  ⟨by decide, toneSub_words.1 packSample (by decide)⟩

/-- C7 as stated fails: the envelope word of the packing example is not
0x01020304 (sustain 3 is the low byte, release 4 the byte above it). -/
theorem toneSub_sample_envelope :
    (toneSub packSample).map ToneCall.envelope ≠ [0x01020304] := by
  decide

/-- A value with its low `i` bits clear or-ed with a value below `2^i` is
their sum. -/
theorem or_eq_add (x b i : Nat) (hx : x % 2 ^ i = 0) (hb : b < 2 ^ i) :
    x ||| b = x + b := by
  have hdiv : 2 ^ i * (x / 2 ^ i) = x := by
    have := Nat.div_add_mod x (2 ^ i)
    omega
  rw [← hdiv]
  exact (Nat.mul_add_lt_is_or hb _).symm

/-- The packed words of in-range parameters, as sums. -/
theorem toneSub_inRange (p : ToneParams) (hr : p.inRange) :
    toneSub p =
      [⟨p.freq2 * 65536 + p.freq1,
        p.attack * 16777216 + p.decay * 65536 + p.release * 256 + p.sustain,
        u32 p.volume,
        p.mode * 4 + p.channel⟩] := by
  obtain ⟨h1, h2, h3, h4, h5, h6, h7, h8⟩ := hr
  have s1 : shl32 p.freq2 16 = p.freq2 * 65536 := by
    simp only [shl32, u32, Nat.shiftLeft_eq]; omega
  have s2 : shl32 p.attack 24 = p.attack * 16777216 := by
    simp only [shl32, u32, Nat.shiftLeft_eq]; omega
  have s3 : shl32 p.decay 16 = p.decay * 65536 := by
    simp only [shl32, u32, Nat.shiftLeft_eq]; omega
  have s4 : shl32 p.release 8 = p.release * 256 := by
    simp only [shl32, u32, Nat.shiftLeft_eq]; omega
  have s5 : shl32 p.mode 2 = p.mode * 4 := by
    simp only [shl32, u32, Nat.shiftLeft_eq]; omega
  have f1 : p.freq1 ||| p.freq2 * 65536 = p.freq2 * 65536 + p.freq1 := by
    rw [Nat.or_comm]
    exact or_eq_add _ _ 16 (by omega) (by omega)
  have f2 : p.channel ||| p.mode * 4 = p.mode * 4 + p.channel := by
    rw [Nat.or_comm]
    exact or_eq_add _ _ 2 (by omega) (by omega)
  have f3 : p.attack * 16777216 ||| p.decay * 65536 ||| p.sustain ||| p.release * 256
      = p.attack * 16777216 + p.decay * 65536 + p.release * 256 + p.sustain := by
    rw [Nat.or_assoc (p.attack * 16777216 ||| p.decay * 65536), Nat.or_comm p.sustain,
      ← Nat.or_assoc]
    rw [or_eq_add (p.attack * 16777216) (p.decay * 65536) 24 (by omega) (by omega)]
    rw [or_eq_add (p.attack * 16777216 + p.decay * 65536) (p.release * 256) 16 (by omega)
      (by omega)]
    exact or_eq_add _ _ 8 (by omega) (by omega)
  have g1 : u32 (p.freq2 * 65536 + p.freq1) = p.freq2 * 65536 + p.freq1 :=
    u32_of_lt (by omega)
  have g2 : u32 (p.attack * 16777216 + p.decay * 65536 + p.release * 256 + p.sustain)
      = p.attack * 16777216 + p.decay * 65536 + p.release * 256 + p.sustain :=
    u32_of_lt (by omega)
  have g3 : u32 (p.mode * 4 + p.channel) = p.mode * 4 + p.channel :=
    u32_of_lt (by omega)
  simp only [toneSub, s1, s2, s3, s4, s5, f1, f2, f3, g1, g2, g3]

theorem and_255 (x : Nat) : x &&& 0xFF = x % 256 :=
  Nat.and_pow_two_sub_one_eq_mod x 8

theorem and_65535 (x : Nat) : x &&& 0xFFFF = x % 65536 :=
  Nat.and_pow_two_sub_one_eq_mod x 16

theorem and_3 (x : Nat) : x &&& 3 = x % 4 :=
  Nat.and_pow_two_sub_one_eq_mod x 2

/-- C8 (field layout round trip): for in-range parameters (phases < 256,
frequencies < 65536, channel and mode < 4) every field is read back from the
words of the one host call: sustain = envelope AND 0xFF, release =
(envelope >> 8) AND 0xFF, decay = (envelope >> 16) AND 0xFF, attack =
envelope >> 24, freq1 = frequency AND 0xFFFF, freq2 = frequency >> 16,
channel = flags AND 3, mode = flags >> 2; hence two in-range parameter sets
with the same volume and the same words are equal. -/
theorem toneSub_roundtrip :
    (∀ p : ToneParams, p.inRange →
      ∃ c, toneSub p = [c] ∧
        c.envelope &&& 0xFF = p.sustain ∧
        (c.envelope >>> 8) &&& 0xFF = p.release ∧
        (c.envelope >>> 16) &&& 0xFF = p.decay ∧
        c.envelope >>> 24 = p.attack ∧
        c.frequency &&& 0xFFFF = p.freq1 ∧
        c.frequency >>> 16 = p.freq2 ∧
        c.flags &&& 3 = p.channel ∧
        c.flags >>> 2 = p.mode) ∧
    (∀ p q : ToneParams, p.inRange → q.inRange → p.volume = q.volume →
      toneSub p = toneSub q → p = q) := by
  constructor
  · intro p hr
    refine ⟨_, toneSub_inRange p hr, ?_⟩
    obtain ⟨h1, h2, h3, h4, h5, h6, h7, h8⟩ := hr
    simp only [and_255, and_65535, and_3, Nat.shiftRight_eq_div_pow]
    refine ⟨?_, ?_, ?_, ?_, ?_, ?_, ?_, ?_⟩ <;> omega
  · intro p q hp hq hv h
    rw [toneSub_inRange p hp, toneSub_inRange q hq] at h
    simp only [List.cons.injEq, ToneCall.mk.injEq, and_true] at h
    obtain ⟨e1, e2, _, e4⟩ := h
    obtain ⟨h1, h2, h3, h4, h5, h6, h7, h8⟩ := hp
    obtain ⟨k1, k2, k3, k4, k5, k6, k7, k8⟩ := hq
    cases p
    cases q
    simp only [ToneParams.mk.injEq]
    simp only at e1 e2 e4 hv h1 h2 h3 h4 h5 h6 h7 h8 k1 k2 k3 k4 k5 k6 k7 k8
    refine ⟨?_, ?_, ?_, ?_, ?_, ?_, ?_, ?_, ?_⟩ <;> omega

/-- Instance of C8 at the packing example. -/
theorem toneSub_roundtrip_witness :
    packSample.inRange ∧
    ∃ c, toneSub packSample = [c] ∧
      c.envelope &&& 0xFF = packSample.sustain ∧
      (c.envelope >>> 8) &&& 0xFF = packSample.release ∧
      (c.envelope >>> 16) &&& 0xFF = packSample.decay ∧
      c.envelope >>> 24 = packSample.attack ∧
      c.frequency &&& 0xFFFF = packSample.freq1 ∧
      c.frequency >>> 16 = packSample.freq2 ∧
      c.flags &&& 3 = packSample.channel ∧
      c.flags >>> 2 = packSample.mode :=
  ⟨by decide, toneSub_roundtrip.1 packSample (by decide)⟩

theorem shl32_mod (x k m : Nat) (h : k + m = 32) : shl32 (x % 2 ^ m) k = shl32 x k := by
  simp only [shl32, u32, Nat.shiftLeft_eq]
  have e : (4294967296 : Nat) = 2 ^ m * 2 ^ k := by
    rw [← Nat.pow_add, Nat.add_comm, h]
  rw [e, Nat.mul_mod_mul_right, Nat.mul_mod_mul_right, Nat.mod_mod]

/-- A 32-bit left shift by `k` keeps exactly the low `32 - k` bits of its
operand. -/
theorem shl32_eq (x k m : Nat) (h : k + m = 32) : shl32 x k = x % 2 ^ m * 2 ^ k := by
  simp only [shl32, u32, Nat.shiftLeft_eq]
  have e : (4294967296 : Nat) = 2 ^ m * 2 ^ k := by
    rw [← Nat.pow_add, Nat.add_comm, h]
  rw [e, Nat.mul_mod_mul_right]

/-- The four words of `toneSub` for 32-bit fields, with every shift written
as the reduction it performs: no mask is applied to any field. -/
theorem toneSub_exact (p : ToneParams) (hwf : p.wf) :
    toneSub p =
      [⟨p.freq1 ||| p.freq2 % 65536 * 65536,
        p.attack % 256 * 16777216 ||| p.decay % 65536 * 65536 ||| p.sustain
          ||| p.release % 16777216 * 256,
        p.volume,
        p.channel ||| p.mode % 1073741824 * 4⟩] := by
  obtain ⟨h1, _, _, _, h5, _, h7, h8, _⟩ := hwf
  have e1 := u32_or h1 (shl32_lt p.freq2 16)
  have e2 := u32_or (or_lt32 (or_lt32 (shl32_lt p.attack 24) (shl32_lt p.decay 16)) h5)
    (shl32_lt p.release 8)
  have e3 := u32_or h8 (shl32_lt p.mode 2)
  have s1 := shl32_eq p.freq2 16 16 rfl
  have s2 := shl32_eq p.attack 24 8 rfl
  have s3 := shl32_eq p.decay 16 16 rfl
  have s4 := shl32_eq p.release 8 24 rfl
  have s5 := shl32_eq p.mode 2 30 rfl
  simp only [Nat.reducePow] at s1 s2 s3 s4 s5
  simp only [toneSub, e1, e2, e3, u32_of_lt h7]
  rw [s1, s2, s3, s4, s5]

/-- C9 (amended): `toneSub` masks no field; the only truncation is the one
its 32-bit left shifts perform. For every ToneParams with 32-bit fields the
words are frequency = freq1 | ((freq2 mod 2^16) * 2^16), envelope =
((attack mod 2^8) * 2^24) | ((decay mod 2^16) * 2^16) | sustain |
((release mod 2^24) * 2^8), volume = volume, flags = channel |
((mode mod 2^30) * 4). Hence the words are those of the parameters with
`freq2`, `attack`, `decay`, `release`, `mode` reduced modulo 2^16, 2^8,
2^16, 2^24, 2^30, and reducing `freq2` and `attack` to their field widths
never changes a word. `freq1`, `sustain`, `volume` and `channel` enter whole:
alone, any 32-bit value of one of them is its word. `decay`, `release` and
`mode` keep their bits beyond the field width: alone, decay < 2^16 gives
envelope decay * 2^16, release < 2^24 gives release * 2^8, mode < 2^30 gives
flags mode * 4. -/
theorem toneSub_truncates :
    (∀ p : ToneParams, toneSub p = toneSub p.dropShifted) ∧
    (∀ p : ToneParams,
      toneSub p = toneSub { p with freq2 := p.freq2 % 65536, attack := p.attack % 256 }) ∧
    (∀ p : ToneParams, p.wf →
      toneSub p =
        [⟨p.freq1 ||| p.freq2 % 65536 * 65536,
          p.attack % 256 * 16777216 ||| p.decay % 65536 * 65536 ||| p.sustain
            ||| p.release % 16777216 * 256,
          p.volume,
          p.channel ||| p.mode % 1073741824 * 4⟩]) ∧
    (∀ x : Nat, x < 4294967296 →
      toneSub { freq1 := x } = [⟨x, 0, 0, 0⟩] ∧
      toneSub { sustain := x } = [⟨0, x, 0, 0⟩] ∧
      toneSub { volume := x } = [⟨0, 0, x, 0⟩] ∧
      toneSub { channel := x } = [⟨0, 0, 0, x⟩]) ∧
    (∀ x : Nat, x < 65536 → toneSub { decay := x } = [⟨0, x * 65536, 0, 0⟩]) ∧
    (∀ x : Nat, x < 16777216 → toneSub { release := x } = [⟨0, x * 256, 0, 0⟩]) ∧
    (∀ x : Nat, x < 1073741824 → toneSub { mode := x } = [⟨0, 0, 0, x * 4⟩]) := by
  have hshift : ∀ p : ToneParams, toneSub p = toneSub p.dropShifted ∧
      toneSub p = toneSub { p with freq2 := p.freq2 % 65536, attack := p.attack % 256 } := by
    intro p
    have a1 := shl32_mod p.freq2 16 16 rfl
    have a2 := shl32_mod p.attack 24 8 rfl
    have a3 := shl32_mod p.decay 16 16 rfl
    have a4 := shl32_mod p.release 8 24 rfl
    have a5 := shl32_mod p.mode 2 30 rfl
    simp only [Nat.reducePow] at a1 a2 a3 a4 a5
    constructor
    · simp only [toneSub, ToneParams.dropShifted, a1, a2, a3, a4, a5]
    · simp only [toneSub, a1, a2]
  refine ⟨fun p => (hshift p).1, fun p => (hshift p).2, toneSub_exact, ?_, ?_, ?_, ?_⟩
  · intro x hx
    have h0 : (0 : Nat) < 4294967296 := by decide
    refine ⟨?_, ?_, ?_, ?_⟩
    · rw [toneSub_exact { freq1 := x } ⟨hx, h0, h0, h0, h0, h0, h0, h0, h0⟩]
      simp
    · rw [toneSub_exact { sustain := x } ⟨h0, h0, h0, h0, hx, h0, h0, h0, h0⟩]
      simp
    · rw [toneSub_exact { volume := x } ⟨h0, h0, h0, h0, h0, h0, hx, h0, h0⟩]
      simp
    · rw [toneSub_exact { channel := x } ⟨h0, h0, h0, h0, h0, h0, h0, hx, h0⟩]
      simp
  · intro x hx
    have h0 : (0 : Nat) < 4294967296 := by decide
    rw [toneSub_exact { decay := x } ⟨h0, h0, h0, by show x < 4294967296; omega, h0, h0, h0,
      h0, h0⟩]
    simp [Nat.mod_eq_of_lt hx]
  · intro x hx
    have h0 : (0 : Nat) < 4294967296 := by decide
    rw [toneSub_exact { release := x } ⟨h0, h0, h0, h0, h0, by show x < 4294967296; omega, h0,
      h0, h0⟩]
    simp [Nat.mod_eq_of_lt hx]
  · intro x hx
    have h0 : (0 : Nat) < 4294967296 := by decide
    rw [toneSub_exact { mode := x } ⟨h0, h0, h0, h0, h0, h0, h0, h0,
      by show x < 4294967296; omega⟩]
    simp [Nat.mod_eq_of_lt hx]

/-- Instance of C9 (amended) at parameters with over-wide sustain, release
and channel: nothing is masked, the words are 0, 65792, 0 and 4. -/
theorem toneSub_truncates_witness :
    wideSample.wf ∧
    toneSub wideSample =
      [⟨wideSample.freq1 ||| wideSample.freq2 % 65536 * 65536,
        wideSample.attack % 256 * 16777216 ||| wideSample.decay % 65536 * 65536
          ||| wideSample.sustain ||| wideSample.release % 16777216 * 256,
        wideSample.volume,
        wideSample.channel ||| wideSample.mode % 1073741824 * 4⟩] ∧
    toneSub wideSample = [⟨0, 65792, 0, 4⟩] ∧
    toneSub { sustain := 256 } = [⟨0, 256, 0, 0⟩] :=
  ⟨by decide, toneSub_truncates.2.2.1 wideSample (by decide), by decide,
   (toneSub_truncates.2.2.2.1 256 (by decide)).2.1⟩

/-- C9 as stated fails: an over-wide `freq1`, `decay`, `sustain`, `release`,
`channel` or `mode` changes the words, so reducing every field to its width
does not give the same call. -/
theorem toneSub_overwide :
    toneSub { freq1 := 65536 } ≠ toneSub (ToneParams.reduceToWidth { freq1 := 65536 }) ∧
    toneSub { decay := 256 } ≠ toneSub (ToneParams.reduceToWidth { decay := 256 }) ∧
    toneSub { sustain := 256 } ≠ toneSub (ToneParams.reduceToWidth { sustain := 256 }) ∧
    toneSub { release := 256 } ≠ toneSub (ToneParams.reduceToWidth { release := 256 }) ∧
    toneSub { channel := 4 } ≠ toneSub (ToneParams.reduceToWidth { channel := 4 }) ∧
    toneSub { mode := 4 } ≠ toneSub (ToneParams.reduceToWidth { mode := 4 }) := by
  decide

/-! ## Defaults and frames -/

/-- C15: `newToneParams` is the constant record with freq1 = 500,
sustain = 30, volume = 100 and every other field 0; `toneSub` sends it as
the one call with frequency 500, envelope 30, volume 100 and flags 0. -/
theorem newToneParams_default :
    newToneParams.freq1 = 500 ∧ newToneParams.sustain = 30 ∧ newToneParams.volume = 100 ∧
    newToneParams.freq2 = 0 ∧ newToneParams.attack = 0 ∧ newToneParams.decay = 0 ∧
    newToneParams.release = 0 ∧ newToneParams.channel = 0 ∧ newToneParams.mode = 0 ∧
    toneSub newToneParams = [⟨500, 30, 100, 0⟩] := by
  refine ⟨rfl, rfl, rfl, rfl, rfl, rfl, rfl, rfl, rfl, ?_⟩
  decide

/-- C13 (waiting transition): with wait > 0, `step` makes no host call and
leaves the track with wait lowered by exactly one (no 16-bit wraparound) and
every other field as it was; the buffer is not read: the same holds with
any buffer in its place, the empty one included. -/
theorem step_waiting_frame (self : Track) (hwf : self.wf) (hpos : 0 < self.wait) :
    step self = ⟨[], some { self with wait := self.wait - 1 }⟩ ∧
    self.wait - 1 + 1 = self.wait ∧ self.wait - 1 < 65536 ∧
    ∀ buf : List Nat,
      step { self with tones := buf }
        = ⟨[], some { self with tones := buf, wait := self.wait - 1 }⟩ := by
  have hlt : self.wait < 65536 := hwf.2.1
  have hne : self.wait ≠ 0 := by omega
  refine ⟨step_waiting self hne hlt, by omega, by omega, ?_⟩
  intro buf
  exact step_waiting { self with tones := buf } hne hlt

/-- Instance of C13: the sample track with three ticks left to wait. -/
theorem step_waiting_frame_witness :
    step { sampleTrack with wait := 3 } = ⟨[], some { sampleTrack with wait := 3 - 1 }⟩ ∧
    3 - 1 + 1 = 3 ∧ 3 - 1 < 65536 ∧
    ∀ buf : List Nat,
      step { sampleTrack with wait := 3, tones := buf }
        = ⟨[], some { sampleTrack with tones := buf, wait := 3 - 1 }⟩ :=
  step_waiting_frame { sampleTrack with wait := 3 } (by decide) (by decide)

/-- Whatever the track and the buffer: a tick that did not fault changed at
most `next` and `wait`. -/
theorem step_keeps (self t1 : Track) (h : (step self).track = some t1) :
    t1 = { self with next := t1.next, wait := t1.wait } := by
  unfold step at h
  split at h
  · split at h
    · simp at h
    · split at h
      · simp at h
      · simp only at h
        split at h
        · simp at h
        · split at h
          · simp at h
          · split at h
            · simp only [Option.some.injEq] at h
              subst h
              rfl
            · simp only [Option.some.injEq] at h
              subst h
              rfl
  · simp only [Option.some.injEq] at h
    subst h
    rfl

/-- A run that did not fault changed at most `next` and `wait`. -/
theorem steps_keeps (m : Nat) : ∀ (self t1 : Track), (steps m self).track = some t1 →
    t1 = { self with next := t1.next, wait := t1.wait } := by
  induction m with
  | zero =>
    intro self t1 h
    simp only [steps, Option.some.injEq] at h
    subst h
    rfl
  | succ m ih =>
    intro self t1 h
    rcases hs : step self with ⟨cs, _ | t0⟩
    · simp [steps, hs] at h
    · simp only [steps, hs] at h
      have h0 := step_keeps self t0 (by rw [hs])
      have h1 := ih t0 t1 h
      rw [h1, h0]

/-- C16 (frame of step): a tick that does not fault, waiting or decoding,
rest and end marker included, leaves ticks, instrument, volume, flags,
toneCount and the buffer (reference and content) as they were; only `next`
and `wait` can differ. The same holds for every run of ticks. -/
theorem step_frame (self : Track) :
    (∀ t1, (step self).track = some t1 →
      t1.ticks = self.ticks ∧ t1.instrument = self.instrument ∧ t1.volume = self.volume ∧
      t1.flags = self.flags ∧ t1.toneCount = self.toneCount ∧ t1.tones = self.tones ∧
      t1 = { self with next := t1.next, wait := t1.wait }) ∧
    (∀ m t1, (steps m self).track = some t1 →
      t1 = { self with next := t1.next, wait := t1.wait }) := by
  constructor
  · intro t1 h
    have e := step_keeps self t1 h
    refine ⟨?_, ?_, ?_, ?_, ?_, ?_, e⟩ <;> rw [e]
  · intro m t1 h
    exact steps_keeps m self t1 h

/-- Instance of C16: the sample track standing on its end marker. -/
theorem step_frame_witness :
    (step { sampleTrack with next := 2 }).track
      = some { sampleTrack with next := 0, wait := 0 } ∧
    sampleTrack.ticks = 2 ∧ sampleTrack.tones = [33, 2, 0, 255, 1, 0, 254, 0, 0] :=
  ⟨by decide,
   ((step_frame { sampleTrack with next := 2 }).1 { sampleTrack with next := 0, wait := 0 }
      (by decide)).1,
   ((step_frame { sampleTrack with next := 2 }).1 { sampleTrack with next := 0, wait := 0 }
      (by decide)).2.2.2.2.2.1⟩

/-! ## Tables and emitted words -/

/-- Every row of the instrument table: channel at most 2, mode below 4, and
both read back from the packed flags word. -/
theorem row_facts : ∀ row ∈ trackInstruments,
    row.1 ≤ 2 ∧ row.2 < 4 ∧ (row.1 ||| (row.2 <<< 2)) < 16 ∧
    (row.1 ||| (row.2 <<< 2)) &&& 3 = row.1 ∧ (row.1 ||| (row.2 <<< 2)) >>> 2 = row.2 := by
  decide

/-- Every note frequency is positive and fits 16 bits. -/
theorem note_facts : ∀ x ∈ trackNotes, 0 < x ∧ x < 65536 := by
  decide

/-- The host calls of a decoding tick that reads a playable note, whether or
not the tick later faults on `toneCount = 0`. -/
theorem step_calls_note (self : Track) (n d : Nat) (hwait : self.wait = 0)
    (h0 : self.tones[u32 (u32 (self.next * 3) + 0)]? = some n)
    (h1 : self.tones[u32 (u32 (self.next * 3) + 1)]? = some d) (hlt : n < 60) :
    ∃ freq row, trackNotes[n]? = some freq ∧
      trackInstruments[self.instrument % 9]? = some row ∧
      (step self).calls =
        toneSub { freq1 := u32 freq, freq2 := 0, attack := 0, decay := 0, sustain := 0,
                  release := u32 (d * self.ticks), volume := self.volume,
                  channel := row.1, mode := row.2 } := by
  have hlt2 : n < trackNotes.length := hlt
  have hf : trackNotes[n]? = some trackNotes[n] := List.getElem?_eq_getElem hlt2
  obtain ⟨row, hrow, _⟩ := flags_of_row (self.instrument % 9) (Nat.mod_lt _ (by decide))
  refine ⟨_, row, hf, hrow, ?_⟩
  have hne : n ≠ TrackOpCodeEnd := by simp only [TrackOpCodeEnd]; omega
  by_cases hc0 : self.toneCount = 0
  · simp only [step, hwait, h0, h1, trackNotes_length, trackInstruments_length, hlt, hf, hrow,
      hc0, if_true, u8, Nat.reduceMod]
  · simp only [step, hwait, h0, h1, trackNotes_length, trackInstruments_length, hlt, hf, hrow,
      hc0, hne, if_true, if_false, u8, Nat.reduceMod]

/-- A tick makes host calls only when it decodes a playable note. -/
theorem step_calls_mem (self : Track) (c : ToneCall) (hc : c ∈ (step self).calls) :
    ∃ n d, self.wait = 0 ∧ self.tones[u32 (u32 (self.next * 3) + 0)]? = some n ∧
      self.tones[u32 (u32 (self.next * 3) + 1)]? = some d ∧ n < 60 := by
  by_cases hwait : self.wait = 0
  · rcases h0 : self.tones[u32 (u32 (self.next * 3) + 0)]? with _ | n
    · simp only [step, hwait, h0, if_true] at hc
      simp at hc
    · rcases h1 : self.tones[u32 (u32 (self.next * 3) + 1)]? with _ | d
      · simp only [step, hwait, h0, h1, if_true] at hc
        simp at hc
      · by_cases hlt : n < 60
        · exact ⟨n, d, hwait, rfl, rfl, hlt⟩
        · exfalso
          by_cases hc0 : self.toneCount = 0
          · simp only [step, hwait, h0, h1, trackNotes_length, hlt, hc0, if_true,
              if_false] at hc
            simp at hc
          · by_cases hend : n = TrackOpCodeEnd
            · simp only [step, hwait, h0, h1, trackNotes_length, hlt, hc0, eq_true hend,
                if_true, if_false] at hc
              simp at hc
            · simp only [step, hwait, h0, h1, trackNotes_length, hlt, hc0, hend, if_true,
                if_false] at hc
              simp at hc
  · simp only [step, hwait, if_false] at hc
    simp at hc

/-- C17 (no overflow in emitted words): every host call `step` makes on a
well-formed track comes from a duration byte `d` and an instrument row with
`d * ticks ≤ 65025` computed without wraparound, envelope word exactly
`d * ticks * 256`, below 2^24, with attack byte and sustain byte zero,
frequency word below 2^16 (upper half zero), volume word the track's volume,
below 256, and flags word below 16 with channel = flags AND 3 at most 2 and
mode = flags >> 2. -/
theorem emitted_words_bounded (self : Track) (hwf : self.wf) (c : ToneCall)
    (hc : c ∈ (step self).calls) :
    ∃ n d row, self.tones[u32 (u32 (self.next * 3) + 0)]? = some n ∧
      self.tones[u32 (u32 (self.next * 3) + 1)]? = some d ∧
      trackInstruments[self.instrument % 9]? = some row ∧
      d * self.ticks ≤ 65025 ∧ u32 (d * self.ticks) = d * self.ticks ∧
      c.envelope = d * self.ticks * 256 ∧ c.envelope < 2 ^ 24 ∧
      c.envelope >>> 24 = 0 ∧ c.envelope &&& 0xFF = 0 ∧
      c.frequency < 2 ^ 16 ∧ c.frequency >>> 16 = 0 ∧
      c.volume = self.volume ∧ c.volume < 256 ∧
      c.flags < 16 ∧ c.flags &&& 3 = row.1 ∧ row.1 ≤ 2 ∧ c.flags >>> 2 = row.2 := by
  obtain ⟨n, d, hwait, h0, h1, hlt⟩ := step_calls_mem self c hc
  obtain ⟨freq, row, hfreq, hrow, hcalls⟩ := step_calls_note self n d hwait h0 h1 hlt
  have hd : d < 256 := byte_lt hwf h1
  obtain ⟨_, _, hticks, _, hvol, _, _, _, _, _⟩ := hwf
  have hprod : d * self.ticks ≤ 255 * 255 := Nat.mul_le_mul (by omega) (by omega)
  obtain ⟨hpos, hfq⟩ := note_facts freq (List.getElem?_mem hfreq)
  obtain ⟨r1, r2, r3, r4, r5⟩ := row_facts row (List.getElem?_mem hrow)
  obtain ⟨row2, hrow2, hflags⟩ := flags_of_row (self.instrument % 9) (Nat.mod_lt _ (by decide))
  have hrr : row2 = row := by rw [hrow] at hrow2; exact (Option.some.inj hrow2).symm
  subst hrr
  have hu : u32 (d * self.ticks) = d * self.ticks := u32_of_lt (by omega)
  rw [hcalls, hu, u32_of_lt (show freq < 4294967296 by omega),
    toneSub_note freq d self.ticks self.volume row2.1 row2.2 (by omega) hd hticks hvol hflags,
    List.mem_singleton] at hc
  subst hc
  have henv : (d * self.ticks) <<< 8 = d * self.ticks * 256 := by
    rw [Nat.shiftLeft_eq]
  refine ⟨n, d, row2, h0, h1, hrow, by omega, hu, henv, ?_, ?_, ?_, ?_, ?_, rfl, hvol, r3, r4,
    r1, r5⟩
  · show (d * self.ticks) <<< 8 < 2 ^ 24
    rw [henv]; omega
  · show (d * self.ticks) <<< 8 >>> 24 = 0
    rw [henv, Nat.shiftRight_eq_div_pow]; omega
  · show (d * self.ticks) <<< 8 &&& 0xFF = 0
    rw [henv, and_255]; omega
  · show freq < 2 ^ 16
    omega
  · show freq >>> 16 = 0
    rw [Nat.shiftRight_eq_div_pow]; omega

/-- Instance of C17 at the top of every 8-bit range. -/
theorem emitted_words_bounded_witness :
    (⟨1980, 16646400, 255, 4⟩ : ToneCall) ∈ (step loudTrack).calls ∧
    ∃ n d row, loudTrack.tones[u32 (u32 (loudTrack.next * 3) + 0)]? = some n ∧
      loudTrack.tones[u32 (u32 (loudTrack.next * 3) + 1)]? = some d ∧
      trackInstruments[loudTrack.instrument % 9]? = some row ∧
      d * loudTrack.ticks ≤ 65025 ∧ u32 (d * loudTrack.ticks) = d * loudTrack.ticks ∧
      (⟨1980, 16646400, 255, 4⟩ : ToneCall).envelope = d * loudTrack.ticks * 256 ∧
      (⟨1980, 16646400, 255, 4⟩ : ToneCall).envelope < 2 ^ 24 ∧
      (⟨1980, 16646400, 255, 4⟩ : ToneCall).envelope >>> 24 = 0 ∧
      (⟨1980, 16646400, 255, 4⟩ : ToneCall).envelope &&& 0xFF = 0 ∧
      (⟨1980, 16646400, 255, 4⟩ : ToneCall).frequency < 2 ^ 16 ∧
      (⟨1980, 16646400, 255, 4⟩ : ToneCall).frequency >>> 16 = 0 ∧
      (⟨1980, 16646400, 255, 4⟩ : ToneCall).volume = loudTrack.volume ∧
      (⟨1980, 16646400, 255, 4⟩ : ToneCall).volume < 256 ∧
      (⟨1980, 16646400, 255, 4⟩ : ToneCall).flags < 16 ∧
      (⟨1980, 16646400, 255, 4⟩ : ToneCall).flags &&& 3 = row.1 ∧ row.1 ≤ 2 ∧
      (⟨1980, 16646400, 255, 4⟩ : ToneCall).flags >>> 2 = row.2 :=
  ⟨by decide, emitted_words_bounded loudTrack (by decide) _ (by decide)⟩

/-- C12 (instrument wrap): on a decoding tick that plays a note, with the
8-bit instrument index equal to 9 + m, the one host call is packed from the
row `trackInstruments[m mod 9]`, whose channel and mode are read back from
the flags word; and for every index the resolved index (index modulo the
8-bit table length) is below the table length, so the lookup succeeds. -/
theorem instrument_wraps :
    (∀ (self : Track) (n d m : Nat), self.wf → self.wait = 0 → 0 < self.toneCount →
      self.tones[self.next * 3]? = some n → self.tones[self.next * 3 + 1]? = some d →
      n < 60 → self.instrument = 9 + m →
      ∃ freq row c, trackNotes[n]? = some freq ∧ trackInstruments[m % 9]? = some row ∧
        (step self).calls = [c] ∧
        [c] = toneSub { freq1 := freq, freq2 := 0, attack := 0, decay := 0, sustain := 0,
                        release := d * self.ticks, volume := self.volume,
                        channel := row.1, mode := row.2 } ∧
        c.flags &&& 3 = row.1 ∧ c.flags >>> 2 = row.2) ∧
    (∀ i : Nat, i % u8 trackInstruments.length < trackInstruments.length ∧
      ∃ row, trackInstruments[i % u8 trackInstruments.length]? = some row) := by
  constructor
  · intro self n d m hwf hwait hcount hn hd hlt hm
    obtain ⟨calls, hstep, _, hplay⟩ := step_decode self n d hwf hwait hcount hn hd
    obtain ⟨freq, row, hfreq, hrow, hcalls⟩ := hplay hlt
    have hdlt : d < 256 := byte_lt hwf hd
    obtain ⟨_, _, hticks, _, hvol, _, _, _, _, _⟩ := hwf
    obtain ⟨_, hfq⟩ := note_facts freq (List.getElem?_mem hfreq)
    obtain ⟨_, _, _, r4, r5⟩ := row_facts row (List.getElem?_mem hrow)
    obtain ⟨row2, hrow2, hflags⟩ :=
      flags_of_row (self.instrument % 9) (Nat.mod_lt _ (by decide))
    have hrr : row2 = row := by rw [hrow] at hrow2; exact (Option.some.inj hrow2).symm
    subst hrr
    have hidx : self.instrument % 9 = m % 9 := by rw [hm, Nat.add_mod_left]
    rw [hidx] at hrow
    refine ⟨freq, row2, _, hfreq, hrow, by rw [hstep, hcalls], ?_, r4, r5⟩
    rw [toneSub_note freq d self.ticks self.volume row2.1 row2.2 (by omega) hdlt hticks hvol
      hflags]
  · intro i
    have h : i % u8 trackInstruments.length < trackInstruments.length :=
      Nat.mod_lt _ (by decide)
    exact ⟨h, _, List.getElem?_eq_getElem h⟩

/-- Instance of C12: the sample track plays with instrument 10 = 9 + 1. -/
theorem instrument_wraps_witness :
    ∃ freq row c, trackNotes[33]? = some freq ∧ trackInstruments[1 % 9]? = some row ∧
      (step sampleTrack).calls = [c] ∧
      [c] = toneSub { freq1 := freq, freq2 := 0, attack := 0, decay := 0, sustain := 0,
                      release := 2 * sampleTrack.ticks, volume := sampleTrack.volume,
                      channel := row.1, mode := row.2 } ∧
      c.flags &&& 3 = row.1 ∧ c.flags >>> 2 = row.2 :=
  instrument_wraps.1 sampleTrack 33 2 1 (by decide) rfl (by decide) rfl rfl (by decide) rfl

/-- Each note frequency is below the next one. -/
theorem trackNotes_step : ∀ i, i < 59 → trackNotes.getD i 0 < trackNotes.getD (i + 1) 0 := by
  decide

/-- The note table is non-decreasing along its indices. -/
theorem trackNotes_mono (i j : Nat) (hij : i ≤ j) (hj : j < 60) :
    trackNotes.getD i 0 ≤ trackNotes.getD j 0 := by
  induction j with
  | zero =>
    have h : i = 0 := by omega
    subst h
    exact Nat.le_refl _
  | succ j ih =>
    rcases Nat.eq_or_lt_of_le hij with h | h
    · subst h
      exact Nat.le_refl _
    · have h1 := ih (by omega) (by omega)
      have h2 := trackNotes_step j (by omega)
      omega

/-- Below 60 the defaulting lookup is the table lookup. -/
theorem trackNotes_getD (i : Nat) (hi : i < 60) :
    trackNotes[i]? = some (trackNotes.getD i 0) := by
  have h : i < trackNotes.length := hi
  simp [List.getD, List.getElem?_eq_getElem h]

/-- The frequency word of the call made when the note byte at `next` is the
playable note `a`. -/
theorem step_note_frequency (self : Track) (a : Nat) (hwf : self.wf) (hwait : self.wait = 0)
    (hcount : 0 < self.toneCount) (hentry : self.next * 3 + 1 < self.tones.length)
    (ha : a < 60) :
    ∃ c, (step { self with tones := self.tones.set (self.next * 3) a }).calls = [c] ∧
      c.frequency = trackNotes.getD a 0 := by
  have hwf2 := wf_set_byte hwf (self.next * 3) a (by omega)
  have hn2 : (self.tones.set (self.next * 3) a)[self.next * 3]? = some a := by
    simp [List.getElem?_set_self, show self.next * 3 < self.tones.length by omega]
  have hd2 : (self.tones.set (self.next * 3) a)[self.next * 3 + 1]?
      = some self.tones[self.next * 3 + 1] := by
    rw [List.getElem?_set_ne (by omega)]
    exact List.getElem?_eq_getElem hentry
  obtain ⟨calls, hstep, _, hplay⟩ :=
    step_decode { self with tones := self.tones.set (self.next * 3) a } a _ hwf2 hwait hcount
      hn2 hd2
  obtain ⟨freq, row, hfreq, _, hcalls⟩ := hplay ha
  rw [trackNotes_getD a ha] at hfreq
  have hf : freq = trackNotes.getD a 0 := (Option.some.inj hfreq).symm
  exact ⟨_, by rw [hstep, hcalls], hf⟩

/-- C14: the note table has exactly 60 entries, all positive, and is
non-decreasing along its indices (i < j < 60 gives trackNotes[i] ≤
trackNotes[j]); so for two playable note bytes a ≤ b at the decoded entry,
the frequency word of the call for a is at most the one for b. -/
theorem trackNotes_ordered :
    trackNotes.length = 60 ∧ (∀ x ∈ trackNotes, 0 < x) ∧
    (∀ i j, i < j → j < 60 →
      ∃ fi fj, trackNotes[i]? = some fi ∧ trackNotes[j]? = some fj ∧ fi ≤ fj) ∧
    (∀ (self : Track) (a b : Nat), self.wf → self.wait = 0 → 0 < self.toneCount →
      self.next * 3 + 1 < self.tones.length → a ≤ b → b < 60 →
      ∃ ca cb,
        (step { self with tones := self.tones.set (self.next * 3) a }).calls = [ca] ∧
        (step { self with tones := self.tones.set (self.next * 3) b }).calls = [cb] ∧
        ca.frequency ≤ cb.frequency) := by
  refine ⟨rfl, fun x hx => (note_facts x hx).1, ?_, ?_⟩
  · intro i j hij hj
    exact ⟨_, _, trackNotes_getD i (by omega), trackNotes_getD j hj,
      trackNotes_mono i j (by omega) hj⟩
  · intro self a b hwf hwait hcount hentry hab hb
    obtain ⟨ca, hca, hfa⟩ := step_note_frequency self a hwf hwait hcount hentry (by omega)
    obtain ⟨cb, hcb, hfb⟩ := step_note_frequency self b hwf hwait hcount hentry hb
    exact ⟨ca, cb, hca, hcb, by rw [hfa, hfb]; exact trackNotes_mono a b hab hb⟩

/-- Instance of C14: notes 12 and 33 in the first entry of the sample track. -/
theorem trackNotes_ordered_witness :
    (∃ fi fj, trackNotes[12]? = some fi ∧ trackNotes[33]? = some fj ∧ fi ≤ fj) ∧
    ∃ ca cb,
      (step { sampleTrack with tones := sampleTrack.tones.set (sampleTrack.next * 3) 12 }).calls
        = [ca] ∧
      (step { sampleTrack with tones := sampleTrack.tones.set (sampleTrack.next * 3) 33 }).calls
        = [cb] ∧
      ca.frequency ≤ cb.frequency :=
  ⟨trackNotes_ordered.2.2.1 12 33 (by decide) (by decide),
   trackNotes_ordered.2.2.2 sampleTrack 12 33 (by decide) rfl (by decide) (by decide)
     (by decide) (by decide)⟩

/-! ## Safety -/

/-- C11 (safety under the loader's precondition): with toneCount > 0,
next < toneCount and at least toneCount * 3 bytes, no run of `n` ticks
faults, and in the track it leaves the next tick is safe too: both read
indices, computed modulo 2^32, lie in the buffer, the instrument index lies
in its table, every note below the note count has a table entry, toneCount
is not zero, and that tick does not fault. -/
theorem steps_safe (self : Track) (hcount : 0 < self.toneCount)
    (hnext : self.next < self.toneCount)
    (hbuf : self.toneCount * 3 ≤ self.tones.length) (n : Nat) :
    ∃ cs t1, steps n self = ⟨cs, some t1⟩ ∧
      u32 (u32 (t1.next * 3) + 0) < t1.tones.length ∧
      u32 (u32 (t1.next * 3) + 1) < t1.tones.length ∧
      t1.instrument % u8 trackInstruments.length < trackInstruments.length ∧
      (∀ note, note < trackNotes.length → ∃ freq, trackNotes[note]? = some freq) ∧
      t1.toneCount ≠ 0 ∧
      ∃ cs2 t2, step t1 = ⟨cs2, some t2⟩ := by
  obtain ⟨cs, t1, hrun⟩ := steps_total n self hcount hnext hbuf
  obtain ⟨h1, h2, h3⟩ := steps_next_lt n self t1 hcount hnext (by rw [hrun])
  have hentry : t1.next * 3 + 1 < t1.tones.length := by rw [h2]; omega
  have b0 : u32 (u32 (t1.next * 3) + 0) < t1.tones.length := by
    have := u32_le (t1.next * 3)
    have := u32_le (u32 (t1.next * 3) + 0)
    omega
  have b1 : u32 (u32 (t1.next * 3) + 1) < t1.tones.length := by
    have := u32_le (t1.next * 3)
    have := u32_le (u32 (t1.next * 3) + 1)
    omega
  obtain ⟨cs2, nx, w, hstep, _⟩ := step_total t1 (by omega) hentry
  exact ⟨cs, t1, hrun, b0, b1, Nat.mod_lt _ (by decide),
    fun note h => ⟨_, List.getElem?_eq_getElem h⟩, by omega, cs2, _, hstep⟩

/-- Instance of C11: seven ticks of the sample track. -/
theorem steps_safe_witness :
    ∃ cs t1, steps 7 sampleTrack = ⟨cs, some t1⟩ ∧
      u32 (u32 (t1.next * 3) + 0) < t1.tones.length ∧
      u32 (u32 (t1.next * 3) + 1) < t1.tones.length ∧
      t1.instrument % u8 trackInstruments.length < trackInstruments.length ∧
      (∀ note, note < trackNotes.length → ∃ freq, trackNotes[note]? = some freq) ∧
      t1.toneCount ≠ 0 ∧
      ∃ cs2 t2, step t1 = ⟨cs2, some t2⟩ :=
  steps_safe sampleTrack (by decide) (by decide) (by decide) 7

theorem periodTicks_succ (tones : List Nat) (k : Nat) :
    periodTicks tones (k + 1) = periodTicks tones k + (tones.getD (k * 3 + 1) 0 + 1) := by
  simp [periodTicks, entryTicks, List.range_succ]

theorem playableCount_succ (tones : List Nat) (k : Nat) :
    playableCount tones (k + 1)
      = playableCount tones k + (if tones.getD (k * 3) 0 < 60 then 1 else 0) := by
  simp [playableCount, List.range_succ, List.countP_append, List.countP_cons]

/-! ## Playback period -/

/-- On a track without end markers started at `next = 0`, `wait = 0`: after
the ticks of its first `k` entries the cursor stands on entry `k` (modulo
`toneCount`) with nothing left to wait, and one host call was made per
playable entry. -/
theorem period_prefix (self : Track) (hwf : self.wf) (hcount : 0 < self.toneCount)
    (hnext : self.next = 0) (hwait : self.wait = 0)
    (hbuf : self.toneCount * 3 ≤ self.tones.length)
    (hnoend : ∀ i, i < self.toneCount → self.tones[i * 3]? ≠ some TrackOpCodeEnd)
    (k : Nat) (hk : k ≤ self.toneCount) :
    ∃ cs, steps (periodTicks self.tones k) self
        = ⟨cs, some { self with next := k % self.toneCount, wait := 0 }⟩ ∧
      cs.length = playableCount self.tones k := by
  induction k with
  | zero =>
    refine ⟨[], ?_, rfl⟩
    have e : ({ self with next := 0 % self.toneCount, wait := 0 } : Track) = self := by
      cases self
      simp only at hnext hwait
      subst hnext hwait
      simp
    rw [e]
    rfl
  | succ k ih =>
    obtain ⟨cs, hrun, hlen⟩ := ih (by omega)
    have hklt : k < self.toneCount := by omega
    rw [Nat.mod_eq_of_lt hklt] at hrun
    have hwf' := hwf
    obtain ⟨h1, h2, h3, h4, h5, h6, h7, h8, h9, h10⟩ := hwf'
    have hwfk : ({ self with next := k, wait := 0 } : Track).wf :=
      ⟨by show k < 4294967296; omega, Nat.zero_lt_succ _, h3, h4, h5, h6, h7, h8, h9, h10⟩
    have i0 : k * 3 < self.tones.length := by omega
    have i1 : k * 3 + 1 < self.tones.length := by omega
    have hn := List.getElem?_eq_getElem i0
    have hd := List.getElem?_eq_getElem i1
    have hdlt : self.tones[k * 3 + 1] < 256 := byte_lt hwf hd
    have hne : self.tones[k * 3] ≠ TrackOpCodeEnd := by
      intro h
      exact hnoend k hklt (by rw [hn, h])
    obtain ⟨calls, hstep, hrest, hplay⟩ :=
      step_decode { self with next := k, wait := 0 } _ _ hwfk rfl hcount hn hd
    simp only [hne, if_false] at hstep
    have hwaitrun := steps_waiting self.tones[k * 3 + 1]
      { self with next := (k + 1) % self.toneCount, wait := self.tones[k * 3 + 1] }
      (by show self.tones[k * 3 + 1] < 65536; omega) (Nat.le_refl _)
    simp only [Nat.sub_self] at hwaitrun
    have hentry := steps_add 1 self.tones[k * 3 + 1] { self with next := k, wait := 0 } _ calls
      (by rw [steps_one, hstep])
    rw [hwaitrun] at hentry
    have hall := steps_add (periodTicks self.tones k) (1 + self.tones[k * 3 + 1]) self _ cs hrun
    rw [hentry] at hall
    have hgetd : self.tones.getD (k * 3 + 1) 0 = self.tones[k * 3 + 1] := by
      simp [List.getD, hd]
    have hgetn : self.tones.getD (k * 3) 0 = self.tones[k * 3] := by
      simp [List.getD, hn]
    have hticks : periodTicks self.tones (k + 1)
        = periodTicks self.tones k + (1 + self.tones[k * 3 + 1]) := by
      rw [periodTicks_succ, hgetd]; omega
    rw [hticks, hall]
    refine ⟨_, rfl, ?_⟩
    rw [playableCount_succ, hgetn]
    simp only [List.append_nil, List.length_append, hlen]
    by_cases hlt : self.tones[k * 3] < 60
    · obtain ⟨freq, row, _, _, hcalls⟩ := hplay hlt
      simp [hcalls, hlt]
    · have hc := hrest (by omega)
      simp [hc, hlt]

/-- C18 (playback period): for a well-formed track with toneCount = N > 0,
at least 3 * N bytes and no end marker among its note bytes, started at
next = 0 and wait = 0: after exactly the sum over i < N of (d_i + 1) ticks
the track is the start track again (next = 0, wait = 0, every other field
unchanged) and the number of host calls made equals the number of entries
with note byte below 60; entry k is reached, with nothing left to wait,
after the ticks of the entries before it and occupies d_k + 1 ticks. -/
theorem playback_period (self : Track) (hwf : self.wf) (hcount : 0 < self.toneCount)
    (hnext : self.next = 0) (hwait : self.wait = 0)
    (hbuf : self.toneCount * 3 ≤ self.tones.length)
    (hnoend : ∀ i, i < self.toneCount → self.tones[i * 3]? ≠ some TrackOpCodeEnd) :
    (∃ cs, steps (periodTicks self.tones self.toneCount) self = ⟨cs, some self⟩ ∧
      cs.length = playableCount self.tones self.toneCount) ∧
    (∀ k, k < self.toneCount →
      ∃ cs d, steps (periodTicks self.tones k) self
          = ⟨cs, some { self with next := k, wait := 0 }⟩ ∧
        cs.length = playableCount self.tones k ∧
        self.tones[k * 3 + 1]? = some d ∧
        periodTicks self.tones (k + 1) = periodTicks self.tones k + (d + 1)) := by
  constructor
  · obtain ⟨cs, hrun, hlen⟩ :=
      period_prefix self hwf hcount hnext hwait hbuf hnoend self.toneCount (Nat.le_refl _)
    have e : ({ self with next := self.toneCount % self.toneCount, wait := 0 } : Track)
        = self := by
      rw [Nat.mod_self]
      cases self
      simp only at hnext hwait
      subst hnext hwait
      rfl
    rw [e] at hrun
    exact ⟨cs, hrun, hlen⟩
  · intro k hk
    obtain ⟨cs, hrun, hlen⟩ :=
      period_prefix self hwf hcount hnext hwait hbuf hnoend k (by omega)
    rw [Nat.mod_eq_of_lt hk] at hrun
    have i1 : k * 3 + 1 < self.tones.length := by omega
    have hd := List.getElem?_eq_getElem i1
    refine ⟨cs, _, hrun, hlen, hd, ?_⟩
    rw [periodTicks_succ]
    simp [List.getD, hd]

/-- Instance of C18: the two-entry track from its start; 4 + 2 ticks, one
playable entry. -/
theorem playback_period_witness :
    (∃ cs, steps (periodTicks [12, 3, 0, 255, 1, 0] 2) { loopTrack with next := 0 }
        = ⟨cs, some { loopTrack with next := 0 }⟩ ∧
      cs.length = playableCount [12, 3, 0, 255, 1, 0] 2) ∧
    periodTicks [12, 3, 0, 255, 1, 0] 2 = 6 ∧ playableCount [12, 3, 0, 255, 1, 0] 2 = 1 :=
  ⟨(playback_period { loopTrack with next := 0 } (by decide) (by decide) rfl rfl (by decide)
      (by decide)).1, by decide, by decide⟩

/-! ## End markers -/

/-- A tick with the cursor at or before entry `e` sees only the bytes of the
entries up to `e`: on any buffer with the same bytes there it makes the same
host calls and leaves the same cursor and countdown. -/
theorem step_agree (self : Track) (buf : List Nat) (e : Nat) (cs : List ToneCall)
    (t1 : Track) (hwf : self.wf) (hwfb : ({ self with tones := buf } : Track).wf)
    (hcount : 0 < self.toneCount) (hnext : self.next ≤ e)
    (hbuf : (e + 1) * 3 ≤ self.tones.length)
    (hagree : ∀ i, i < (e + 1) * 3 → buf[i]? = self.tones[i]?)
    (hstep : step self = ⟨cs, some t1⟩) :
    step { self with tones := buf } = ⟨cs, some { t1 with tones := buf }⟩ := by
  by_cases hwait : self.wait = 0
  · have i0 : self.next * 3 < self.tones.length := by omega
    have i1 : self.next * 3 + 1 < self.tones.length := by omega
    have hn := List.getElem?_eq_getElem i0
    have hd := List.getElem?_eq_getElem i1
    have hnb : buf[self.next * 3]? = some self.tones[self.next * 3] := by
      rw [hagree _ (by omega)]; exact hn
    have hdb : buf[self.next * 3 + 1]? = some self.tones[self.next * 3 + 1] := by
      rw [hagree _ (by omega)]; exact hd
    obtain ⟨calls, hs, hrest, hplay⟩ := step_decode self _ _ hwf hwait hcount hn hd
    obtain ⟨calls2, hs2, hrest2, hplay2⟩ :=
      step_decode { self with tones := buf } _ _ hwfb hwait hcount hnb hdb
    have hcc : calls2 = calls := by
      by_cases hlt : self.tones[self.next * 3] < 60
      · obtain ⟨freq, row, hfreq, hrow, hcalls⟩ := hplay hlt
        obtain ⟨freq2, row2, hfreq2, hrow2, hcalls2⟩ := hplay2 hlt
        rw [hfreq] at hfreq2
        rw [hrow] at hrow2
        have e1 : freq = freq2 := Option.some.inj hfreq2
        have e2 : row = row2 := Option.some.inj hrow2
        subst e1 e2
        rw [hcalls, hcalls2]
      · rw [hrest (by omega), hrest2 (by omega)]
    rw [hs] at hstep
    simp only [StepResult.mk.injEq, Option.some.injEq] at hstep
    obtain ⟨k1, k2⟩ := hstep
    subst k1 k2
    rw [hs2, hcc]
  · have hlt : self.wait < 65536 := hwf.2.1
    rw [step_waiting self hwait hlt] at hstep
    simp only [StepResult.mk.injEq, Option.some.injEq] at hstep
    obtain ⟨k1, k2⟩ := hstep
    subst k1 k2
    exact step_waiting { self with tones := buf } hwait hlt

/-- With an end marker at entry `e` and the cursor at or before `e`, every
run keeps the cursor at or before `e`, and its host calls and final cursor
do not depend on the bytes of the entries after `e`. -/
theorem steps_marker (e m : Nat) : ∀ self : Track, self.wf → e < self.toneCount →
    self.toneCount * 3 ≤ self.tones.length →
    self.tones[e * 3]? = some TrackOpCodeEnd → self.next ≤ e →
    ∃ cs t1, steps m self = ⟨cs, some t1⟩ ∧ t1.next ≤ e ∧
      ∀ buf : List Nat, ({ self with tones := buf } : Track).wf →
        (∀ i, i < (e + 1) * 3 → buf[i]? = self.tones[i]?) →
        steps m { self with tones := buf } = ⟨cs, some { t1 with tones := buf }⟩ := by
  induction m with
  | zero =>
    intro self _ _ _ _ hnext
    exact ⟨[], self, rfl, hnext, fun buf _ _ => rfl⟩
  | succ m ih =>
    intro self hwf he hbuf hmark hnext
    have hcount : 0 < self.toneCount := by omega
    obtain ⟨cs0, t0, hstep, hwf0, hN, htones, hlt, hW, hD⟩ :=
      step_loaded self hwf hcount (by omega) hbuf
    have hle : t0.next ≤ e := by
      by_cases hwait : self.wait = 0
      · obtain ⟨n, d, hn, _, _, hnx⟩ := hD hwait
        rw [hnx]
        by_cases hend : n = TrackOpCodeEnd
        · simp [hend]
        · simp only [hend, if_false]
          have hlt2 : self.next < e := by
            rcases Nat.eq_or_lt_of_le hnext with h | h
            · exfalso
              rw [h, hmark] at hn
              exact hend (Option.some.inj hn).symm
            · exact h
          exact Nat.le_trans (Nat.mod_le _ _) hlt2
      · rw [(hW hwait).1]; exact hnext
    obtain ⟨cs1, t1, hrun, hle1, hind⟩ :=
      ih t0 hwf0 (by rw [hN]; exact he) (by rw [hN, htones]; exact hbuf)
        (by rw [htones]; exact hmark) hle
    refine ⟨cs0 ++ cs1, t1, by simp only [steps, hstep, hrun], hle1, ?_⟩
    intro buf hwfb hagree
    have hsb := step_agree self buf e cs0 t0 hwf hwfb hcount hnext (by omega) hagree hstep
    have hwfb0 : ({ t0 with tones := buf } : Track).wf := by
      obtain ⟨a1, a2, a3, a4, a5, a6, a7, a8, _, _⟩ := hwf0
      obtain ⟨_, _, _, _, _, _, _, _, b9, b10⟩ := hwfb
      exact ⟨a1, a2, a3, a4, a5, a6, a7, a8, b9, b10⟩
    have hrb := hind buf hwfb0 (by rw [htones]; exact hagree)
    simp only [steps, hsb, hrb]

/-- C19 (entries after an end marker are unreachable): for a well-formed
track with at least 3 * toneCount bytes and an entry e < toneCount (so
toneCount > 0) whose note byte is the end marker 0xFE, if next ≤ e then
after every run of ticks next ≤ e still; no entry after e is decoded or
played: on any buffer with the same bytes up to entry e the run makes the
same host calls and leaves the same track (but for its buffer). -/
theorem marker_bounds_cursor (self : Track) (e : Nat) (hwf : self.wf)
    (he : e < self.toneCount) (hbuf : self.toneCount * 3 ≤ self.tones.length)
    (hmark : self.tones[e * 3]? = some TrackOpCodeEnd) (hnext : self.next ≤ e) (m : Nat) :
    ∃ cs t1, steps m self = ⟨cs, some t1⟩ ∧ t1.next ≤ e ∧
      ∀ buf : List Nat, ({ self with tones := buf } : Track).wf →
        (∀ i, i < (e + 1) * 3 → buf[i]? = self.tones[i]?) →
        steps m { self with tones := buf } = ⟨cs, some { t1 with tones := buf }⟩ :=
  steps_marker e m self hwf he hbuf hmark hnext

/-- Instance of C19: five ticks of the track with the marker in its second
entry. -/
theorem marker_bounds_cursor_witness :
    ∃ cs t1, steps 5 markedTrack = ⟨cs, some t1⟩ ∧ t1.next ≤ 1 ∧
      ∀ buf : List Nat, ({ markedTrack with tones := buf } : Track).wf →
        (∀ i, i < (1 + 1) * 3 → buf[i]? = markedTrack.tones[i]?) →
        steps 5 { markedTrack with tones := buf } = ⟨cs, some { t1 with tones := buf }⟩ :=
  marker_bounds_cursor markedTrack 1 (by decide) (by decide) (by decide) rfl (by decide) 5

end Beep
